import Mathlib

/-!
Shallow embedding of the `Bigraph`/`Graph` classes of `pymaptools/graph.py`
(the bipartite/unipartite weighted-graph engine of the repository), together
with proofs about the claims of the specification.

Modelling conventions:
* Python vertex values are modelled by `PyVal`: either `None` (`PyVal.pnone`)
  or an integer (`PyVal.pint n`); the repository's tests only use integers
  and strings, and `None` matters solely for the `_map_edge` check.
* Python `dict` / `defaultdict` objects are modelled by insertion-ordered
  association lists (`List (key × value)`); `set` objects by insertion-ordered
  duplicate-free lists.  Python's `set`/`dict` iteration order is unspecified,
  so any fixed deterministic order is a faithful choice; no claim below
  depends on enumeration order.
* A `defaultdict` *read* `d[k]` inserts the default value when `k` is absent.
  Reads of the edge-weight table inside `find_connected_components` are
  modelled exactly that way (`emapGetIns`), threading the mutated table
  through the traversal, because the key may genuinely be absent there.
  Adjacency-map reads inside the enumerators (`d[idx][node]`, `v2u[x]`) only
  ever happen at keys that are present for the invocations considered here
  (symmetric graphs, default arguments), so they are modelled as pure lookups.
* Methods that can raise (`GraphError` from `_map_edge`, `SkipEdge` from a
  renamer, Python `assert`) return `Except String _`.
* Weights use the default `weight_type=int`, modelled by `Int`.
-/

inductive PyVal : Type
  | pnone : PyVal
  | pint : Int → PyVal
deriving DecidableEq, Repr

open PyVal

/-- Python 2 comparison used by `sorted`: `None` sorts below every number. -/
def ple : PyVal → PyVal → Bool
  | pnone, _ => true
  | pint _, pnone => false
  | pint a, pint b => decide (a ≤ b)

abbrev Edge := PyVal × PyVal

abbrev AdjMap := List (PyVal × List PyVal)

abbrev EdgeMap := List (Edge × Int)

/-- First-match association-list lookup (Python `dict` access without default). -/
def alookup {κ β : Type} [DecidableEq κ] (k : κ) : List (κ × β) → Option β
  | [] => Option.none
  | p :: rest => if p.1 = k then some p.2 else alookup k rest

/-- Read of `defaultdict(set)` at a key that is present (absent keys give `[]`). -/
def adjGet (m : AdjMap) (k : PyVal) : List PyVal :=
  (alookup k m).getD []

/-- `d[k].add(v)` on a `defaultdict(set)`: create the entry if needed and add `v`. -/
def adjAdd : AdjMap → PyVal → PyVal → AdjMap
  | [], k, v => [(k, [v])]
  | (k', vs) :: rest, k, v =>
    if k' = k then (k', if v ∈ vs then vs else vs ++ [v]) :: rest
    else (k', vs) :: adjAdd rest k v

/-- `d[e] += w` on a `defaultdict(int)`: accumulate into the entry, default `0`. -/
def emapAdd : EdgeMap → Edge → Int → EdgeMap
  | [], e, w => [(e, w)]
  | (e', w') :: rest, e, w =>
    if e' = e then (e', w' + w) :: rest
    else (e', w') :: emapAdd rest e w

/-- Plain read `d[e]` of a `defaultdict(int)`: inserts the default `0` on a miss
(the Python side effect that matters for `Graph.find_connected_components`). -/
def emapGetIns (m : EdgeMap) (e : Edge) : Int × EdgeMap :=
  match alookup e m with
  | some w => (w, m)
  | Option.none => (0, m ++ [(e, 0)])

/-- Python `set.add` for sets modelled as duplicate-free lists. -/
def insertUnique (l : List PyVal) (x : PyVal) : List PyVal :=
  if x ∈ l then l else l ++ [x]

/-- `itertools.product(us, vs)` in iteration order. -/
def pyProduct (us vs : List PyVal) : List (PyVal × PyVal) :=
  (us.map (fun u => vs.map (fun v => (u, v)))).flatten

/-- The `GraphError` message raised by `_map_edge`. -/
def graphErrorMsg : String := "An edge must connect two nodes"

/-- Undirected bipartite graph `G = (U & V, E)`; fields mirror `Bigraph.__init__`
for a fresh object (`U2V`, `V2U` adjacency defaultdicts and the `edges` table). -/
structure Bigraph where
  U2V : AdjMap
  V2U : AdjMap
  edges : EdgeMap
deriving DecidableEq, Repr

/-- Undirected unipartite graph: `Graph.__init__` aliases `U2V = V2U`, so a
single adjacency map is stored (spec §3, aliasing invariant). -/
structure Graph where
  V2U : AdjMap
  edges : EdgeMap
deriving DecidableEq, Repr

def Bigraph.empty : Bigraph := ⟨[], [], []⟩

def Graph.empty : Graph := ⟨[], []⟩

/-- `Bigraph.U` property: keys of the left adjacency map. -/
def Bigraph.U (g : Bigraph) : List PyVal := g.U2V.map Prod.fst

/-- `Bigraph.V` property: keys of the right adjacency map. -/
def Bigraph.V (g : Bigraph) : List PyVal := g.V2U.map Prod.fst

/-- `Graph.V` property (for `Graph`, `U2V` and `V2U` are the same object). -/
def Graph.V (g : Graph) : List PyVal := g.V2U.map Prod.fst

/-- `Bigraph._map_edge`: reject a missing endpoint, then register the edge in
both adjacency maps. -/
def Bigraph.map_edge (g : Bigraph) (e : Edge) : Except String Bigraph :=
  if e.1 = pnone ∨ e.2 = pnone then Except.error graphErrorMsg
  else Except.ok ⟨adjAdd g.U2V e.1 e.2, adjAdd g.V2U e.2 e.1, g.edges⟩

/-- `Graph._map_edge` is the inherited method acting on the aliased map:
`self.U2V[u].add(v)` followed by `self.V2U[v].add(u)` on one dict. -/
def Graph.map_edge (g : Graph) (e : Edge) : Except String Graph :=
  if e.1 = pnone ∨ e.2 = pnone then Except.error graphErrorMsg
  else Except.ok ⟨adjAdd (adjAdd g.V2U e.1 e.2) e.2 e.1, g.edges⟩

/-- `Bigraph._store_weight`: `self.edges[edge] += weight`. -/
def Bigraph.store_weight (g : Bigraph) (e : Edge) (w : Int) : Bigraph :=
  ⟨g.U2V, g.V2U, emapAdd g.edges e w⟩

/-- The `rename_store_weight` decorator sets
`Bigraph._store_weight_sorted = Bigraph._store_weight`. -/
def Bigraph.store_weight_sorted (g : Bigraph) (e : Edge) (w : Int) : Bigraph :=
  g.store_weight e w

/-- Inherited `_store_weight` for `Graph` (used by the algebra operators). -/
def Graph.store_weight (g : Graph) (e : Edge) (w : Int) : Graph :=
  ⟨g.V2U, emapAdd g.edges e w⟩

/-- `Graph.make_edge`: `tuple(sorted((u, v)))`. -/
def Graph.make_edge (u v : PyVal) : Edge :=
  if ple u v then (u, v) else (v, u)

/-- `Bigraph.make_edge`: the identity pair. -/
def Bigraph.make_edge (u v : PyVal) : Edge := (u, v)

/-- `Graph._store_weight_sorted`: canonicalize the key before accumulating. -/
def Graph.store_weight_sorted (g : Graph) (e : Edge) (w : Int) : Graph :=
  ⟨g.V2U, emapAdd g.edges (Graph.make_edge e.1 e.2) w⟩

/-- `Bigraph.add_edge`: map the edge then store the weight. -/
def Bigraph.add_edge (g : Bigraph) (u v : PyVal) (w : Int) : Except String Bigraph :=
  match g.map_edge (u, v) with
  | Except.error m => Except.error m
  | Except.ok g' => Except.ok (g'.store_weight_sorted (u, v) w)

/-- `Graph.add_edge` is the inherited `Bigraph.add_edge` body dispatching to the
overridden `_map_edge` and `_store_weight_sorted`. -/
def Graph.add_edge (g : Graph) (u v : PyVal) (w : Int) : Except String Graph :=
  match g.map_edge (u, v) with
  | Except.error m => Except.error m
  | Except.ok g' => Except.ok (g'.store_weight_sorted (u, v) w)

def Bigraph.add_edges (g : Bigraph) (es : List (PyVal × PyVal)) (w : Int) :
    Except String Bigraph :=
  match es with
  | [] => Except.ok g
  | (u, v) :: rest =>
    match g.add_edge u v w with
    | Except.error m => Except.error m
    | Except.ok g' => g'.add_edges rest w

def Graph.add_edges (g : Graph) (es : List (PyVal × PyVal)) (w : Int) :
    Except String Graph :=
  match es with
  | [] => Except.ok g
  | (u, v) :: rest =>
    match g.add_edge u v w with
    | Except.error m => Except.error m
    | Except.ok g' => g'.add_edges rest w

/-- `Bigraph.add_clique((unodes, vnodes))`: all `product(unodes, vnodes)` edges. -/
def Bigraph.add_clique (g : Bigraph) (clique : List PyVal × List PyVal) (w : Int) :
    Except String Bigraph :=
  g.add_edges (pyProduct clique.1 clique.2) w

/-- `Graph.add_clique(clique)`: all `product(clique, clique)` pairs, the
diagonal included. -/
def Graph.add_clique (g : Graph) (clique : List PyVal) (w : Int) :
    Except String Graph :=
  g.add_edges (pyProduct clique clique) w

/-- `Bigraph.__len__`: `len(self.edges)`. -/
def Bigraph.len (g : Bigraph) : Nat := g.edges.length

/-- `Graph.__len__` (inherited). -/
def Graph.len (g : Graph) : Nat := g.edges.length

/-- Python dict equality of two edge-weight tables, as used by `__eq__`
(key sets agree and the values at every key agree). -/
def edgeTablesEq (m m' : EdgeMap) : Prop :=
  ∀ e : Edge, alookup e m = alookup e m'

/-- Equality of `Except`-wrapped results under `__eq__` table equality. -/
def exTablesEq (x y : Except String Bigraph) : Prop :=
  match x, y with
  | Except.ok c, Except.ok d => edgeTablesEq c.edges d.edges
  | Except.error m, Except.error m' => m = m'
  | _, _ => False

/-- Equality of `Except`-wrapped results for the unipartite variant. -/
def exTablesEqG (x y : Except String Graph) : Prop :=
  match x, y with
  | Except.ok c, Except.ok d => edgeTablesEq c.edges d.edges
  | Except.error m, Except.error m' => m = m'
  | _, _ => False

/-- The loop shared by `__and__`/`__or__`/`__sub__` on `Bigraph` results:
for each edge key, `g._map_edge(e)` then `g._store_weight(e, f e)`. -/
def Bigraph.algebra_fold (f : Edge → Int) : List Edge → Bigraph → Except String Bigraph
  | [], g => Except.ok g
  | e :: rest, g =>
    match g.map_edge e with
    | Except.error m => Except.error m
    | Except.ok g1 => Bigraph.algebra_fold f rest (g1.store_weight e (f e))

/-- The same loop building a `Graph` (`self.__class__()` dispatch). -/
def Graph.algebra_fold (f : Edge → Int) : List Edge → Graph → Except String Graph
  | [], g => Except.ok g
  | e :: rest, g =>
    match g.map_edge e with
    | Except.error m => Except.error m
    | Except.ok g1 => Graph.algebra_fold f rest (g1.store_weight e (f e))

/-- `Bigraph.__and__`: intersection of edge keys, minimum of the weights. -/
def Bigraph.and (a b : Bigraph) : Except String Bigraph :=
  let ks := ((a.edges.map Prod.fst).dedup).filter (fun e => e ∈ b.edges.map Prod.fst)
  Bigraph.algebra_fold
    (fun e => min ((alookup e a.edges).getD 0) ((alookup e b.edges).getD 0))
    ks Bigraph.empty

/-- `Bigraph.__or__`: union of edge keys, sum of the weights. -/
def Bigraph.or (a b : Bigraph) : Except String Bigraph :=
  let ks := (a.edges.map Prod.fst ++ b.edges.map Prod.fst).dedup
  Bigraph.algebra_fold
    (fun e => ((alookup e a.edges).getD 0) + ((alookup e b.edges).getD 0))
    ks Bigraph.empty

/-- `Bigraph.__sub__`: keys of `a` absent from `b`, with `a`'s weights. -/
def Bigraph.sub (a b : Bigraph) : Except String Bigraph :=
  let ks := ((a.edges.map Prod.fst).dedup).filter (fun e => ¬ e ∈ b.edges.map Prod.fst)
  Bigraph.algebra_fold (fun e => (alookup e a.edges).getD 0) ks Bigraph.empty

/-- `Graph.__and__` (inherited body, `Graph` hooks). -/
def Graph.and (a b : Graph) : Except String Graph :=
  let ks := ((a.edges.map Prod.fst).dedup).filter (fun e => e ∈ b.edges.map Prod.fst)
  Graph.algebra_fold
    (fun e => min ((alookup e a.edges).getD 0) ((alookup e b.edges).getD 0))
    ks Graph.empty

/-- `Graph.__or__` (inherited body, `Graph` hooks). -/
def Graph.or (a b : Graph) : Except String Graph :=
  let ks := (a.edges.map Prod.fst ++ b.edges.map Prod.fst).dedup
  Graph.algebra_fold
    (fun e => ((alookup e a.edges).getD 0) + ((alookup e b.edges).getD 0))
    ks Graph.empty

/-- `Graph.__sub__` (inherited body, `Graph` hooks). -/
def Graph.sub (a b : Graph) : Except String Graph :=
  let ks := ((a.edges.map Prod.fst).dedup).filter (fun e => ¬ e ∈ b.edges.map Prod.fst)
  Graph.algebra_fold (fun e => (alookup e a.edges).getD 0) ks Graph.empty

/-- A renamer callback: `Except.error ()` models raising `SkipEdge`. -/
abbrev Renamer := PyVal → Except Unit PyVal

/-- `Bigraph.rename_nodes`: the two renames run inside `try/except SkipEdge`,
so a skip signal drops just that edge; `add_edge` runs outside the `try`. -/
def Bigraph.rename_nodes (ur vr : Renamer) (es : List (Edge × Int))
    (acc : Bigraph) : Except String Bigraph :=
  match es with
  | [] => Except.ok acc
  | ((u, v), w) :: rest =>
    match ur u with
    | Except.error _ => Bigraph.rename_nodes ur vr rest acc
    | Except.ok u' =>
      match vr v with
      | Except.error _ => Bigraph.rename_nodes ur vr rest acc
      | Except.ok v' =>
        match acc.add_edge u' v' w with
        | Except.error m => Except.error m
        | Except.ok acc' => Bigraph.rename_nodes ur vr rest acc'

/-- `Graph.rename_nodes` overrides the base method with no `try/except`:
a `SkipEdge` raised by the renamer propagates and aborts the reduction. -/
def Graph.rename_nodes (vr : Renamer) (es : List (Edge × Int))
    (acc : Graph) : Except String Graph :=
  match es with
  | [] => Except.ok acc
  | ((u, v), w) :: rest =>
    match vr u with
    | Except.error _ => Except.error "SkipEdge"
    | Except.ok u' =>
      match vr v with
      | Except.error _ => Except.error "SkipEdge"
      | Except.ok v' =>
        match acc.add_edge u' v' w with
        | Except.error m => Except.error m
        | Except.ok acc' => Graph.rename_nodes vr rest acc'

/-- Entry point of `Bigraph.rename_nodes` (fresh graph, iterate `self.edges`). -/
def Bigraph.rename_nodes_run (g : Bigraph) (ur vr : Renamer) : Except String Bigraph :=
  Bigraph.rename_nodes ur vr g.edges Bigraph.empty

/-- Entry point of `Graph.rename_nodes`. -/
def Graph.rename_nodes_run (g : Graph) (vr : Renamer) : Except String Graph :=
  Graph.rename_nodes vr g.edges Graph.empty

/-- `Graph.get_density`: the Python `assert nV2V <= denominator` is modelled as
`Except.error "AssertionError"`; the `float` ratio is modelled exactly in `ℚ`. -/
def Graph.get_density (g : Graph) : Except String (Option ℚ) :=
  let nV : Nat := g.V.length
  let nV2V : Nat := 2 * g.edges.length
  if 1 < nV then
    let denominator : Nat := nV * (nV - 1)
    if nV2V ≤ denominator then
      Except.ok (some ((nV2V : ℚ) / (denominator : ℚ)))
    else Except.error "AssertionError"
  else Except.ok Option.none

/-- Result of running a fuelled loop: finished, raised, or ran out of fuel
(the Python loops always terminate; `outOfFuel` never occurs for the fuel
bounds used below, as proved by the sufficiency lemmas). -/
inductive RunRes (α : Type) : Type
  | done (a : α) : RunRes α
  | fail (msg : String) : RunRes α
  | outOfFuel : RunRes α
deriving DecidableEq, Repr

/-- One inner step of `find_connected_components`: iterate the popped node's
neighbor list; for every neighbor, record the edge into the component state
(`rec`), and move the neighbor from `remaining` to the stack if still unvisited
(the `try remaining.remove ... else stack.append` idiom). -/
def ccVisit {α σ : Type} [DecidableEq α] (rec : α → α → σ → Except String σ)
    (node : α) : List α → σ → List α → List α → Except String (σ × List α × List α)
  | [], s, rem, stk => Except.ok (s, rem, stk)
  | nb :: rest, s, rem, stk =>
    match rec node nb s with
    | Except.error m => Except.error m
    | Except.ok s' =>
      if nb ∈ rem then ccVisit rec node rest s' (rem.erase nb) (nb :: stk)
      else ccVisit rec node rest s' rem stk

/-- The `while stack:` loop of one component traversal. -/
def ccInner {α σ : Type} [DecidableEq α] (nbs : α → List α)
    (rec : α → α → σ → Except String σ) :
    Nat → σ → List α → List α → RunRes (σ × List α)
  | 0, _, _, _ => RunRes.outOfFuel
  | _ + 1, s, rem, [] => RunRes.done (s, rem)
  | fuel + 1, s, rem, node :: stk =>
    match ccVisit rec node (nbs node) s rem stk with
    | Except.error m => RunRes.fail m
    | Except.ok (s', rem', stk') => ccInner nbs rec fuel s' rem' stk'

/-- The `while remaining:` loop: pop a seed vertex, flood its component with a
fresh component object, yield it, repeat.  The source edge table `es` is
threaded through because `defaultdict` reads may mutate it. -/
def ccOuter {α γ : Type} [DecidableEq α] (nbs : α → List α)
    (rec : α → α → γ × EdgeMap → Except String (γ × EdgeMap)) (comp0 : γ) :
    Nat → EdgeMap → List α → RunRes (List γ × EdgeMap)
  | 0, _, _ => RunRes.outOfFuel
  | _ + 1, es, [] => RunRes.done ([], es)
  | fuel + 1, es, r :: rest =>
    match ccInner nbs rec (rest.length + 2) (comp0, es) rest [r] with
    | RunRes.outOfFuel => RunRes.outOfFuel
    | RunRes.fail m => RunRes.fail m
    | RunRes.done ((comp, es'), rem') =>
      match ccOuter nbs rec comp0 fuel es' rem' with
      | RunRes.done (comps, es'') => RunRes.done (comp :: comps, es'')
      | other => other

/-- Neighbor function of `Bigraph.find_connected_components`: vertices are
tagged with their side (`false` = part 0 / `U`, `true` = part 1 / `V`) and
neighbors carry the flipped tag (`~idx + 2`). -/
def Bigraph.ccNbs (g : Bigraph) : Bool × PyVal → List (Bool × PyVal)
  | (false, u) => (adjGet g.U2V u).map (fun v => (true, v))
  | (true, v) => (adjGet g.V2U v).map (fun u => (false, u))

/-- Edge recording of `Bigraph.find_connected_components`:
`edge = make_tuple(node, neighbor); edge_weight = self.edges[edge];
component.add_edge(edge[0], edge[1], edge_weight)`. -/
def Bigraph.ccRec : Bool × PyVal → Bool × PyVal → Bigraph × EdgeMap →
    Except String (Bigraph × EdgeMap)
  | (false, u), nb, (comp, es) =>
    let (w, es') := emapGetIns es (u, nb.2)
    match comp.add_edge u nb.2 w with
    | Except.error m => Except.error m
    | Except.ok comp' => Except.ok (comp', es')
  | (true, v), nb, (comp, es) =>
    let (w, es') := emapGetIns es (nb.2, v)
    match comp.add_edge nb.2 v w with
    | Except.error m => Except.error m
    | Except.ok comp' => Except.ok (comp', es')

/-- Initial `remaining` set of `Bigraph.find_connected_components`:
all `U` vertices tagged 0 and all `V` vertices tagged 1. -/
def Bigraph.ccRemaining (g : Bigraph) : List (Bool × PyVal) :=
  g.U2V.map (fun p => (false, p.1)) ++ g.V2U.map (fun p => (true, p.1))

/-- `Bigraph.find_connected_components`, fully consumed: the yielded component
list together with the final state of the source edge table. -/
def Bigraph.find_connected_components (g : Bigraph) : RunRes (List Bigraph × EdgeMap) :=
  ccOuter g.ccNbs Bigraph.ccRec Bigraph.empty (g.ccRemaining.length + 1) g.edges g.ccRemaining

/-- Neighbor function of `Graph.find_connected_components` (single vertex
universe, `v2u = self.V2U`). -/
def Graph.ccNbs (g : Graph) (v : PyVal) : List PyVal :=
  adjGet g.V2U v

/-- Edge recording of `Graph.find_connected_components`:
`edge_weight = self.edges[(u, v)]` — note the key `(u, v)` is **not**
canonicalized with `make_edge`, so this `defaultdict` read can insert a
reversed zero-weight key into the source table — then
`component.add_edge(u, v, edge_weight)`. -/
def Graph.ccRec (v u : PyVal) : Graph × EdgeMap → Except String (Graph × EdgeMap)
  | (comp, es) =>
    let (w, es') := emapGetIns es (u, v)
    match comp.add_edge u v w with
    | Except.error m => Except.error m
    | Except.ok comp' => Except.ok (comp', es')

/-- `Graph.find_connected_components`, fully consumed. -/
def Graph.find_connected_components (g : Graph) : RunRes (List Graph × EdgeMap) :=
  ccOuter g.ccNbs Graph.ccRec Graph.empty (g.V.length + 1) g.edges g.V

/-- Pop the last element of a Python list (`list.pop()`). -/
def popLast {α : Type} : List α → Option (List α × α)
  | [] => Option.none
  | [x] => some ([], x)
  | x :: y :: rest =>
    match popLast (y :: rest) with
    | some (l, z) => some (x :: l, z)
    | Option.none => Option.none

/-- A frame `(L, R, P, Q)` of `Bigraph.find_cliques`. -/
structure BFrame where
  L : List PyVal
  R : List PyVal
  P : List PyVal
  Q : List PyVal
deriving DecidableEq, Repr

/-- The maximality check of `Bigraph.find_cliques` (loop over `Q`): `none`
means a vertex of `Q` is adjacent to all of `L'` (not maximal, `break`);
otherwise returns `Q'`, the vertices of `Q` with partial overlap. -/
def Bigraph.bcCheckQ (g : Bigraph) (Lp : List PyVal) : List PyVal → Option (List PyVal)
  | [] => some []
  | v :: rest =>
    let Nv := (adjGet g.V2U v).filter (fun y => y ∈ Lp)
    if Nv.length = Lp.length then Option.none
    else if Nv.isEmpty then Bigraph.bcCheckQ g Lp rest
    else (Bigraph.bcCheckQ g Lp rest).map (fun q => v :: q)

/-- The extension loop of `Bigraph.find_cliques` (loop over the rest of `P`):
candidates fully adjacent to `L'` are absorbed into `R'`, partial overlaps
become the new `P'`. -/
def Bigraph.bcExtend (g : Bigraph) (Lp : List PyVal) :
    List PyVal → List PyVal → List PyVal × List PyVal
  | [], Rp => (Rp, [])
  | v :: rest, Rp =>
    let Nv := (adjGet g.V2U v).filter (fun y => y ∈ Lp)
    if Nv.length = Lp.length then Bigraph.bcExtend g Lp rest (insertUnique Rp v)
    else if Nv.isEmpty then Bigraph.bcExtend g Lp rest Rp
    else
      let (r, p) := Bigraph.bcExtend g Lp rest Rp
      (r, v :: p)

/-- One `while P:` iteration of `Bigraph.find_cliques` on the top frame:
pop `x` from `P`, extend, check maximality against `Q`, possibly emit
`(L', R')` and push the extension frame, then move `x` into `Q`.
A frame with empty `P` is discarded (its `while` loop is over). -/
def Bigraph.bcStep (g : Bigraph) (fr : BFrame) (rest : List BFrame) :
    List (List PyVal × List PyVal) × List BFrame :=
  match popLast fr.P with
  | Option.none => ([], rest)
  | some (P1, x) =>
    let Rp := insertUnique fr.R x
    let Lp := (adjGet g.V2U x).filter (fun y => y ∈ fr.L)
    let cont : BFrame := ⟨fr.L, fr.R, P1, insertUnique fr.Q x⟩
    match g.bcCheckQ Lp fr.Q with
    | Option.none => ([], cont :: rest)
    | some Qp =>
      let (Rpp, Pp) := g.bcExtend Lp P1 Rp
      if Pp.isEmpty then ([(Lp, Rpp)], cont :: rest)
      else ([(Lp, Rpp)], cont :: ⟨Lp, Rpp, Pp, Qp⟩ :: rest)

/-- The fuelled driver loop of `Bigraph.find_cliques`; the `Bool` is `true`
when the stack emptied (the generator finished) within the given fuel. -/
def Bigraph.bcRun (g : Bigraph) : Nat → List BFrame → List (List PyVal × List PyVal) × Bool
  | 0, stack => ([], stack.isEmpty)
  | _ + 1, [] => ([], true)
  | fuel + 1, fr :: rest =>
    let (out, stack') := g.bcStep fr rest
    let (outs, fin) := g.bcRun fuel stack'
    (out ++ outs, fin)

/-- `Bigraph.find_cliques()` with the default arguments
`L = set(self.U)`, `P = list(self.V)`. -/
def Bigraph.find_cliques (g : Bigraph) (fuel : Nat) :
    List (List PyVal × List PyVal) × Bool :=
  g.bcRun fuel [⟨(g.U).dedup, [], g.V, []⟩]

/-- A frame `(c_compsub, c_candidates, c_not, c_nd, c_disc_num)` of
`Graph.find_cliques` (Bron-Kerbosch version 2 with pivoting). -/
structure GFrame where
  compsub : List PyVal
  cands : List PyVal
  nots : List PyVal
  nd : Option PyVal
  disc : Int
deriving DecidableEq, Repr

/-- The pivot-selection loop (`for cand_nd in new_not:`): pick the vertex of
the new not-set with the fewest non-neighbors among the new candidates;
strict improvement only, so the earliest minimum wins. -/
def Graph.bkPivot (g : Graph) (newCands : List PyVal) :
    List PyVal → Option PyVal × Int → Option PyVal × Int
  | [], best => best
  | c :: rest, (bnd, bdisc) =>
    let cdisc : Int := ((newCands.filter (fun y => ¬ y ∈ adjGet g.V2U c)).length : Int)
    if cdisc < bdisc then g.bkPivot newCands rest (some c, cdisc)
    else g.bkPivot newCands rest (bnd, bdisc)

/-- A deferred stack push of `Graph.find_cliques`: either a fully-built new
frame (`Sum.inl`, all of whose sets are fresh objects in Python), or a
continuation marker (`Sum.inr (nd, disc)`).  Continuation pushes
`(c_compsub, c_candidates, c_not, ...)` alias the loop's mutable sets, so at
pop time they hold the *final* candidate/not sets of the scan; they are
materialized once the scan finishes. -/
abbrev BKPush := GFrame ⊕ (Option PyVal × Int)

/-- The new frame pushed for one qualifying candidate `u` of
`Graph.find_cliques` (source lines 535-549): with no pivot, push directly;
with the pivot inside the new not-set, push only if the decremented
disconnection count stays positive; otherwise re-select the pivot among the
new not-set starting from the function-level `disc_num`. -/
def Graph.bkNewPush (g : Graph) (disc0 : Int) (nd : Option PyVal) (disc : Int)
    (newCompsub newCands newNots : List PyVal) : List BKPush :=
  match nd with
  | Option.none => [Sum.inl ⟨newCompsub, newCands, newNots, nd, disc⟩]
  | some d =>
    if d ∈ newNots then
      if 0 < disc - 1 then [Sum.inl ⟨newCompsub, newCands, newNots, nd, disc - 1⟩]
      else []
    else
      let best := g.bkPivot newCands newNots (nd, disc0)
      [Sum.inl ⟨newCompsub, newCands, newNots, best.1, best.2⟩]

/-- The `for u in list(c_candidates):` scan of one popped frame.  `disc0` is
the function-level `disc_num = len(search_space)` (note line 542 of the source
reads `disc_num`, not `c_disc_num`). -/
def Graph.bkScan (g : Graph) (disc0 : Int) (compsub : List PyVal)
    (nd : Option PyVal) (disc : Int) :
    List PyVal → List PyVal → List PyVal → List BKPush →
    List PyVal × List PyVal × List BKPush
  | [], cands, nots, pushes => (cands, nots, pushes)
  | u :: us, cands, nots, pushes =>
    let Nu := adjGet g.V2U u
    let qualifies : Bool := match nd with
      | Option.none => true
      | some d => decide (¬ d ∈ Nu)
    if qualifies then
      let cands1 := cands.erase u
      let newCompsub := insertUnique compsub u
      let newCands := cands1.filter (fun y => y ∈ Nu)
      let newNots := nots.filter (fun y => y ∈ Nu)
      let newPush : List BKPush := g.bkNewPush disc0 nd disc newCompsub newCands newNots
      let nots1 := insertUnique nots u
      let contDisc : Int := ((cands1.filter (fun y => ¬ y ∈ Nu)).length : Int)
      let contItem : Option PyVal × Int :=
        if 0 < contDisc ∧ contDisc < disc then (some u, contDisc) else (nd, disc)
      g.bkScan disc0 compsub nd disc us cands1 nots1 (pushes ++ newPush ++ [Sum.inr contItem])
    else
      g.bkScan disc0 compsub nd disc us cands nots pushes

/-- Turn a deferred push into a concrete frame, supplying the scan's final
candidate/not sets to the aliasing continuation markers. -/
def bkMaterialize (compsub finalCands finalNots : List PyVal) : BKPush → GFrame
  | Sum.inl f => f
  | Sum.inr (nd, disc) => ⟨compsub, finalCands, finalNots, nd, disc⟩

/-- One iteration of the `while stack:` loop of `Graph.find_cliques`: emit the
compsub iff `candidates` and `not` are both empty and the size reaches
`min_clique_size`; otherwise run the candidate scan and push its frames
(Python appends to the list end and pops from the end; the head of our list is
the top of the stack, hence the `reverse`). -/
def Graph.bkStep (g : Graph) (k : Nat) (disc0 : Int) (fr : GFrame)
    (rest : List GFrame) : List (List PyVal) × List GFrame :=
  if fr.cands.isEmpty ∧ fr.nots.isEmpty ∧ k ≤ fr.compsub.length then
    ([fr.compsub], rest)
  else
    let res := g.bkScan disc0 fr.compsub fr.nd fr.disc fr.cands fr.cands fr.nots []
    ([], (res.2.2.map (bkMaterialize fr.compsub res.1 res.2.1)).reverse ++ rest)

/-- Fuelled driver loop of `Graph.find_cliques`; the `Bool` is `true` when the
stack emptied within the given fuel. -/
def Graph.bkRun (g : Graph) (k : Nat) (disc0 : Int) :
    Nat → List GFrame → List (List PyVal) × Bool
  | 0, stack => ([], stack.isEmpty)
  | _ + 1, [] => ([], true)
  | fuel + 1, fr :: rest =>
    let step := g.bkStep k disc0 fr rest
    let recres := g.bkRun k disc0 fuel step.2
    (step.1 ++ recres.1, recres.2)

/-- `Graph.find_cliques(nodes, min_clique_size)`: search space defaults to
`set(self.V)`; `disc_num = len(search_space)`. -/
def Graph.find_cliques (g : Graph) (nodes : Option (List PyVal)) (k : Nat)
    (fuel : Nat) : List (List PyVal) × Bool :=
  let searchSpace := match nodes with
    | Option.none => (g.V).dedup
    | some ns => ns.dedup
  let disc0 : Int := (searchSpace.length : Int)
  g.bkRun k disc0 fuel [⟨[], searchSpace, [], Option.none, disc0⟩]

/-- Shorthand for integer vertices. -/
def pi (n : Int) : PyVal := PyVal.pint n

/-- Two lists denote the same Python set. -/
def sameSet (l1 l2 : List PyVal) : Bool :=
  l1.all (fun x => x ∈ l2) && l2.all (fun x => x ∈ l1)

/-- A component has the given `(U-side, V-side)` vertex sets. -/
def compPairMatches (c : Bigraph) (p : List PyVal × List PyVal) : Bool :=
  sameSet c.U p.1 && sameSet c.V p.2

/-- Spec-side measure of claim C6: the number of distinct edge keys whose
stored weight is nonzero. -/
def nonzeroKeyCount (m : EdgeMap) : Nat :=
  ((m.filter (fun p => decide (p.2 ≠ 0))).map Prod.fst).dedup.length

def exceptIsOk {γ : Type} : Except String γ → Bool
  | Except.ok _ => true
  | Except.error _ => false

/-- All edge keys of a table have both endpoints present (no `None`). -/
def edgeKeysOk (m : EdgeMap) : Prop :=
  ∀ p ∈ m, p.1.1 ≠ pnone ∧ p.1.2 ≠ pnone

/-- `A ⊇ B` on weight tables: every key of `B` is present in `A` with the
same weight. -/
def edgeSuperset (mA mB : EdgeMap) : Prop :=
  ∀ e w, alookup e mB = some w → alookup e mA = some w

/-- Fold of the component recorder over the neighbor list of one popped node
(specification device for the traversal proofs). -/
def recFold {α σ : Type} (rec : α → α → σ → Except String σ) (a : α) :
    List α → σ → Except String σ
  | [], s => Except.ok s
  | b :: rest, s =>
    match rec a b s with
    | Except.error m => Except.error m
    | Except.ok s' => recFold rec a rest s'

/-- Fold of the component recorder over a list of popped nodes. -/
def roundFold {α σ : Type} (nbs : α → List α) (rec : α → α → σ → Except String σ) :
    List α → σ → Except String σ
  | [], s => Except.ok s
  | a :: rest, s =>
    match recFold rec a (nbs a) s with
    | Except.error m => Except.error m
    | Except.ok s' => roundFold nbs rec rest s'

/-- The side-tagged vertex set of a `Bigraph` (`U` with tag 0/`false`, `V`
with tag 1/`true`), as enumerated by `find_connected_components`. -/
def Bigraph.taggedVerts (c : Bigraph) : List (Bool × PyVal) :=
  c.U2V.map (fun p => (false, p.1)) ++ c.V2U.map (fun p => (true, p.1))

/-- The `make_tuple_for[idx]` orientation of `Bigraph.find_connected_components`:
the recorded edge key for a popped tagged node and one of its neighbors. -/
def ccEdge (a b : Bool × PyVal) : Edge :=
  match a.1 with
  | false => (a.2, b.2)
  | true => (b.2, a.2)

/-- Structural invariants of a `Bigraph` as built by `add_edge`/`add_clique`:
unique adjacency keys, nonempty neighbor sets, no `None` vertices, symmetric
adjacency, and agreement between the adjacency maps and the edge table. -/
def Bigraph.wf (g : Bigraph) : Prop :=
  (g.U2V.map Prod.fst).Nodup ∧ (g.V2U.map Prod.fst).Nodup ∧
  (∀ p ∈ g.U2V, p.2 ≠ [] ∧ p.1 ≠ pnone ∧ ∀ v ∈ p.2, v ≠ pnone ∧ p.1 ∈ adjGet g.V2U v) ∧
  (∀ p ∈ g.V2U, p.2 ≠ [] ∧ p.1 ≠ pnone ∧ ∀ u ∈ p.2, u ≠ pnone ∧ p.1 ∈ adjGet g.U2V u) ∧
  (∀ p ∈ g.U2V, ∀ v ∈ p.2, (alookup (p.1, v) g.edges).isSome = true) ∧
  (∀ q ∈ g.edges, q.1.2 ∈ adjGet g.U2V q.1.1)

/-- Structural invariants of a `Graph` as built by `add_edge`: unique keys,
nonempty neighbor sets, no `None` vertices, symmetry of the single adjacency
map, and agreement with the (canonically sorted) edge table. -/
def Graph.wf (g : Graph) : Prop :=
  (g.V2U.map Prod.fst).Nodup ∧
  (∀ p ∈ g.V2U, p.2 ≠ [] ∧ p.1 ≠ pnone ∧ ∀ u ∈ p.2, u ≠ pnone ∧ p.1 ∈ adjGet g.V2U u) ∧
  (∀ p ∈ g.V2U, ∀ u ∈ p.2, (alookup (Graph.make_edge u p.1) g.edges).isSome = true) ∧
  (∀ q ∈ g.edges, q.1 = Graph.make_edge q.1.1 q.1.2 ∧
    q.1.2 ∈ adjGet g.V2U q.1.1 ∧ q.1.1 ∈ adjGet g.V2U q.1.2)

/-- The C1 scenario graph, built exactly as in the claim. -/
def c1build : Except String Bigraph :=
  match Bigraph.add_clique Bigraph.empty ([pi 1, pi 2, pi 3], [pi (-1), pi (-2), pi (-3)]) 1 with
  | Except.error m => Except.error m
  | Except.ok g =>
  match Bigraph.add_clique g ([pi 4], [pi (-4), pi (-5)]) 1 with
  | Except.error m => Except.error m
  | Except.ok g =>
  match Bigraph.add_clique g ([pi 5], [pi (-5), pi (-6)]) 1 with
  | Except.error m => Except.error m
  | Except.ok g =>
  match g.add_edge (pi 10) (pi 20) 1 with
  | Except.error m => Except.error m
  | Except.ok g =>
  match g.add_edge (pi 30) (pi 20) 1 with
  | Except.error m => Except.error m
  | Except.ok g =>
  match g.add_edge (pi 30) (pi 40) 1 with
  | Except.error m => Except.error m
  | Except.ok g => Except.ok g

def c1g : Bigraph :=
  match c1build with
  | Except.ok g => g
  | Except.error _ => Bigraph.empty

def c1comps : List Bigraph :=
  match c1g.find_connected_components with
  | RunRes.done (cs, _) => cs
  | _ => []

/-- The component vertex-side pairs asserted by the claim. -/
def c1expected : List (List PyVal × List PyVal) :=
  [([pi 1, pi 2, pi 3], [pi (-1), pi (-2), pi (-3)]),
   ([pi 4, pi 5], [pi (-4), pi (-5), pi (-6)]),
   ([pi 10, pi 30], [pi 20, pi 40])]

/-- A unipartite graph with the single edge `1 - 2`
(the value of `Graph().add_edge(1, 2)`). -/
def c5g : Graph := ⟨[(pi 1, [pi 2]), (pi 2, [pi 1])], [((pi 1, pi 2), 1)]⟩

/-- A bipartite graph with the single edge `1 - 2`
(the value of `Bigraph().add_edge(1, 2)`). -/
def c5bg : Bigraph := ⟨[(pi 1, [pi 2])], [(pi 2, [pi 1])], [((pi 1, pi 2), 1)]⟩

/-- A renamer that raises `SkipEdge` on vertex `1` and is the identity
elsewhere. -/
def skipRenamer : Renamer := fun x => if x = pi 1 then Except.error () else Except.ok x

/-- The value of `Graph().add_clique([1, 2])`: note the self-loop edges
`(1, 1)` and `(2, 2)` produced by `product(clique, clique)`. -/
def c10g : Graph :=
  ⟨[(pi 1, [pi 1, pi 2]), (pi 2, [pi 1, pi 2])],
   [((pi 1, pi 1), 1), ((pi 1, pi 2), 2), ((pi 2, pi 2), 1)]⟩

/-- A triangle graph (edges `1-2`, `2-3`, `1-3`), used as a witness input. -/
def triGraph : Graph :=
  ⟨[(pi 1, [pi 2, pi 3]), (pi 2, [pi 1, pi 3]), (pi 3, [pi 2, pi 1])],
   [((pi 1, pi 2), 1), ((pi 2, pi 3), 1), ((pi 1, pi 3), 1)]⟩

/-- C1: on the `Bigraph` built by `add_clique(([1,2,3],[-1,-2,-3]))`,
`add_clique(([4],[-4,-5]))`, `add_clique(([5],[-5,-6]))` and the edges
`(10,20)`, `(30,20)`, `(30,40)`: `find_cliques()` finishes and yields exactly
6 maximal bicliques, and `find_connected_components()` yields exactly 3
components whose (U-side, V-side) vertex sets are `{1,2,3} x {-1,-2,-3}`,
`{4,5} x {-4,-5,-6}` and `{10,30} x {20,40}` (the source edge table is
returned unchanged). -/
theorem c1_scenario_cliques_and_components :
    c1build = Except.ok c1g ∧
    (c1g.find_cliques 200).2 = true ∧
    (c1g.find_cliques 200).1.length = 6 ∧
    c1g.find_connected_components = RunRes.done (c1comps, c1g.edges) ∧
    c1comps.length = 3 ∧
    (c1expected.all (fun p => c1comps.any (fun c => compPairMatches c p)) &&
     c1comps.all (fun c => c1expected.any (fun p => compPairMatches c p))) = true := by
  refine ⟨rfl, ?_, ?_, ?_, ?_, ?_⟩ <;> decide

/-- C3 (counterexample): `Graph().add_edge(1, 1)` does not raise: the
self-loop edge `(1, 1)` is stored with weight 1, contradicting the claim that
`add_edge` fails fatally whenever `u` equals `v`. -/
theorem c3_selfloop_not_rejected :
    (Graph.add_edge Graph.empty (pi 1) (pi 1) 1).map (fun g => alookup (pi 1, pi 1) g.edges)
      = Except.ok (some 1) ∧
    (Graph.add_clique Graph.empty [pi 1, pi 2] 1).map (fun g => alookup (pi 1, pi 1) g.edges)
      = Except.ok (some 1) := by
  exact ⟨rfl, rfl⟩

/-- C3 (amended): `add_edge(u, v, weight)` fails fatally exactly when `u` is
`None` or `v` is `None`; equal endpoints are accepted (and `Graph.add_clique`
stores the resulting self-loop edges), for both `Bigraph` and `Graph`. -/
theorem c3_add_edge_raises_iff_none :
    (∀ (g : Bigraph) (u v : PyVal) (w : Int),
      exceptIsOk (g.add_edge u v w) = true ↔ (u ≠ pnone ∧ v ≠ pnone)) ∧
    (∀ (g : Graph) (u v : PyVal) (w : Int),
      exceptIsOk (g.add_edge u v w) = true ↔ (u ≠ pnone ∧ v ≠ pnone)) := by
  constructor <;>
    · intro g u v w
      cases u <;> cases v <;>
        simp [Graph.add_edge, Bigraph.add_edge, Graph.map_edge, Bigraph.map_edge, exceptIsOk]

/-- C5: fully consuming `Graph.find_connected_components()` on the one-edge
graph `1 - 2` mutates the source: the `defaultdict` read
`self.edges[(u, v)]` with a non-canonical key inserts the reversed zero-weight
key `(2, 1)` into the source edge table (while `Bigraph`'s enumerator leaves
its source table unchanged). -/
theorem c5_graph_components_mutate_source :
    Graph.add_edge Graph.empty (pi 1) (pi 2) 1 = Except.ok c5g ∧
    Graph.find_connected_components c5g =
      RunRes.done ([⟨[(pi 2, [pi 1]), (pi 1, [pi 2])], [((pi 1, pi 2), 1)]⟩],
        [((pi 1, pi 2), 1), ((pi 2, pi 1), 0)]) ∧
    [((pi 1, pi 2), 1), ((pi 2, pi 1), 0)] ≠ c5g.edges ∧
    Bigraph.add_edge Bigraph.empty (pi 1) (pi 2) 1 = Except.ok c5bg ∧
    Bigraph.find_connected_components c5bg =
      RunRes.done ([⟨[(pi 1, [pi 2])], [(pi 2, [pi 1])], [((pi 1, pi 2), 2)]⟩], c5bg.edges) := by
  refine ⟨rfl, ?_, ?_, rfl, ?_⟩ <;> decide

/-- C6 (counterexample): `Bigraph().add_edge(1, 2, weight=0)` stores the key
`(1, 2)` with weight `0`, so `len(graph) = 1` while the number of distinct
edge keys with nonzero weight is `0`. -/
theorem c6_len_counts_zero_weight_keys :
    (Bigraph.add_edge Bigraph.empty (pi 1) (pi 2) 0).map
      (fun g => (Bigraph.len g, nonzeroKeyCount g.edges)) = Except.ok (1, 0) := by
  exact rfl

/-- C6 (amended): `len(graph)` equals the number of distinct stored edge keys;
when every stored weight is nonzero (as for graphs built with the default
positive weights) this equals the number of distinct edge keys with nonzero
weight, for both variants. -/
theorem c6_len_eq_nonzero_keys_of_nonzero_weights :
    (∀ g : Bigraph, (g.edges.map Prod.fst).Nodup → (∀ p ∈ g.edges, p.2 ≠ 0) →
      Bigraph.len g = nonzeroKeyCount g.edges) ∧
    (∀ g : Graph, (g.edges.map Prod.fst).Nodup → (∀ p ∈ g.edges, p.2 ≠ 0) →
      Graph.len g = nonzeroKeyCount g.edges) := by
  constructor <;>
    · intro g hnd hnz
      have hfil : g.edges.filter (fun p => decide (p.2 ≠ 0)) = g.edges :=
        List.filter_eq_self.mpr (fun p hp => by simpa using hnz p hp)
      have hkey : nonzeroKeyCount g.edges = g.edges.length := by
        unfold nonzeroKeyCount
        rw [hfil, List.dedup_eq_self.mpr hnd, List.length_map]
      simp [Bigraph.len, Graph.len, hkey]

/-- C6 witness for the amended statement. -/
theorem c6_len_eq_nonzero_keys_witness :
    Bigraph.len c5bg = nonzeroKeyCount c5bg.edges ∧
    Graph.len c5g = nonzeroKeyCount c5g.edges :=
  ⟨c6_len_eq_nonzero_keys_of_nonzero_weights.1 c5bg (by decide) (by decide),
   c6_len_eq_nonzero_keys_of_nonzero_weights.2 c5g (by decide) (by decide)⟩

/-- C7: a renamer that raises `SkipEdge` aborts `Graph.rename_nodes` (the
override lost the base class's `try/except SkipEdge`), while
`Bigraph.rename_nodes` catches the signal per-edge and simply omits the edge,
as the claim describes. -/
theorem c7_graph_rename_propagates_skip :
    Graph.rename_nodes_run c5g skipRenamer = Except.error "SkipEdge" ∧
    Bigraph.rename_nodes_run c5bg skipRenamer skipRenamer = Except.ok Bigraph.empty := by
  exact ⟨rfl, rfl⟩

/-- C10: the graph built by `Graph().add_clique([1, 2])` contains the
self-loop keys `(1, 1)` and `(2, 2)`, so `2 * len(edges) = 6` exceeds
`|V| * (|V| - 1) = 2` and `get_density()` raises `AssertionError`, refuting
the claim that the internal assertion always holds for graphs built through
`add_edge`/`add_clique`. -/
theorem c10_density_assert_fails_after_add_clique :
    Graph.add_clique Graph.empty [pi 1, pi 2] 1 = Except.ok c10g ∧
    Graph.get_density c10g = Except.error "AssertionError" := by
  exact ⟨rfl, rfl⟩

theorem alookup_emapAdd_self : ∀ (m : EdgeMap) (e : Edge) (w : Int),
    alookup e (emapAdd m e w) = some ((alookup e m).getD 0 + w)
  | [], e, w => by simp [emapAdd, alookup]
  | (e', w') :: rest, e, w => by
    by_cases h : e' = e
    · subst h
      simp [emapAdd, alookup]
    · simp [emapAdd, alookup, h, alookup_emapAdd_self rest e w]

theorem alookup_emapAdd_other : ∀ (m : EdgeMap) (e e' : Edge) (w : Int), e' ≠ e →
    alookup e (emapAdd m e' w) = alookup e m
  | [], e, e', w, h => by simp [emapAdd, alookup, h]
  | (k, w0) :: rest, e, e', w, h => by
    by_cases hk : k = e'
    · subst hk
      simp [emapAdd, alookup, h]
    · by_cases hke : k = e
      · subst hke
        simp [emapAdd, alookup, hk]
      · simp [emapAdd, alookup, hk, hke, alookup_emapAdd_other rest e e' w h]

theorem alookup_isSome_iff {κ β : Type} [DecidableEq κ] :
    ∀ (m : List (κ × β)) (k : κ), (alookup k m).isSome = true ↔ k ∈ m.map Prod.fst
  | [], k => by simp [alookup]
  | (k', b) :: rest, k => by
    by_cases h : k' = k
    · subst h
      simp [alookup]
    · simp [alookup, h, alookup_isSome_iff rest k, Ne.symm h]

theorem Bigraph_map_edge_ok (g : Bigraph) (e : Edge) (h : ¬(e.1 = pnone ∨ e.2 = pnone)) :
    g.map_edge e = Except.ok ⟨adjAdd g.U2V e.1 e.2, adjAdd g.V2U e.2 e.1, g.edges⟩ := by
  simp [Bigraph.map_edge, h]

theorem Bigraph_map_edge_bad (g : Bigraph) (e : Edge) (h : e.1 = pnone ∨ e.2 = pnone) :
    g.map_edge e = Except.error graphErrorMsg := by
  simp [Bigraph.map_edge, h]

theorem Graph_map_edge_ok (g : Graph) (e : Edge) (h : ¬(e.1 = pnone ∨ e.2 = pnone)) :
    g.map_edge e = Except.ok ⟨adjAdd (adjAdd g.V2U e.1 e.2) e.2 e.1, g.edges⟩ := by
  simp [Graph.map_edge, h]

theorem Graph_map_edge_bad (g : Graph) (e : Edge) (h : e.1 = pnone ∨ e.2 = pnone) :
    g.map_edge e = Except.error graphErrorMsg := by
  simp [Graph.map_edge, h]

theorem Bigraph_algebra_fold_ok (f : Edge → Int) :
    ∀ (ks : List Edge) (g : Bigraph), ks.Nodup →
    (∀ e ∈ ks, ¬(e.1 = pnone ∨ e.2 = pnone)) →
    ∃ gr, Bigraph.algebra_fold f ks g = Except.ok gr ∧
      (∀ e, alookup e gr.edges =
        if e ∈ ks then some ((alookup e g.edges).getD 0 + f e) else alookup e g.edges)
  | [], g, _, _ => ⟨g, rfl, by simp⟩
  | k :: rest, g, hnd, hgood => by
    have hk := hgood k (by simp)
    have hfold : Bigraph.algebra_fold f (k :: rest) g
        = Bigraph.algebra_fold f rest
            ((⟨adjAdd g.U2V k.1 k.2, adjAdd g.V2U k.2 k.1, g.edges⟩ : Bigraph).store_weight k (f k)) := by
      simp [Bigraph.algebra_fold, Bigraph_map_edge_ok g k hk]
    obtain ⟨gr, hgr, hchar⟩ := Bigraph_algebra_fold_ok f rest
      ((⟨adjAdd g.U2V k.1 k.2, adjAdd g.V2U k.2 k.1, g.edges⟩ : Bigraph).store_weight k (f k))
      (List.Nodup.of_cons hnd) (fun e he => hgood e (List.mem_cons_of_mem _ he))
    refine ⟨gr, by rw [hfold]; exact hgr, ?_⟩
    intro e
    have hch := hchar e
    by_cases he : e ∈ rest
    · have hek : k ≠ e := by
        intro h
        subst h
        exact (List.nodup_cons.mp hnd).1 he
      rw [if_pos (List.mem_cons_of_mem _ he)]
      rw [if_pos he] at hch
      rw [hch]
      simp [Bigraph.store_weight, alookup_emapAdd_other _ _ _ _ hek]
    · by_cases hek : e = k
      · subst hek
        rw [if_pos (by simp)]
        rw [if_neg he] at hch
        rw [hch]
        simp [Bigraph.store_weight, alookup_emapAdd_self]
      · rw [if_neg (by simp [hek, he])]
        rw [if_neg he] at hch
        rw [hch]
        simp [Bigraph.store_weight,
          alookup_emapAdd_other _ _ _ _ (fun h => hek h.symm)]

theorem Bigraph_algebra_fold_error_of_bad (f : Edge → Int) :
    ∀ (ks : List Edge) (g : Bigraph),
    (¬ ∀ e ∈ ks, ¬(e.1 = pnone ∨ e.2 = pnone)) →
    Bigraph.algebra_fold f ks g = Except.error graphErrorMsg
  | [], _, h => absurd (by simp) h
  | k :: rest, g, h => by
    by_cases hk : k.1 = pnone ∨ k.2 = pnone
    · simp [Bigraph.algebra_fold, Bigraph_map_edge_bad g k hk]
    · have hrest : ¬ ∀ e ∈ rest, ¬(e.1 = pnone ∨ e.2 = pnone) := by
        intro hall
        refine h ?_
        intro e he
        rcases List.mem_cons.mp he with h1 | h2
        · subst h1; exact hk
        · exact hall e h2
      simp [Bigraph.algebra_fold, Bigraph_map_edge_ok g k hk,
        Bigraph_algebra_fold_error_of_bad f rest _ hrest]

theorem Graph_algebra_fold_ok (f : Edge → Int) :
    ∀ (ks : List Edge) (g : Graph), ks.Nodup →
    (∀ e ∈ ks, ¬(e.1 = pnone ∨ e.2 = pnone)) →
    ∃ gr, Graph.algebra_fold f ks g = Except.ok gr ∧
      (∀ e, alookup e gr.edges =
        if e ∈ ks then some ((alookup e g.edges).getD 0 + f e) else alookup e g.edges)
  | [], g, _, _ => ⟨g, rfl, by simp⟩
  | k :: rest, g, hnd, hgood => by
    have hk := hgood k (by simp)
    have hfold : Graph.algebra_fold f (k :: rest) g
        = Graph.algebra_fold f rest
            ((⟨adjAdd (adjAdd g.V2U k.1 k.2) k.2 k.1, g.edges⟩ : Graph).store_weight k (f k)) := by
      simp [Graph.algebra_fold, Graph_map_edge_ok g k hk]
    obtain ⟨gr, hgr, hchar⟩ := Graph_algebra_fold_ok f rest
      ((⟨adjAdd (adjAdd g.V2U k.1 k.2) k.2 k.1, g.edges⟩ : Graph).store_weight k (f k))
      (List.Nodup.of_cons hnd) (fun e he => hgood e (List.mem_cons_of_mem _ he))
    refine ⟨gr, by rw [hfold]; exact hgr, ?_⟩
    intro e
    have hch := hchar e
    by_cases he : e ∈ rest
    · have hek : k ≠ e := by
        intro h
        subst h
        exact (List.nodup_cons.mp hnd).1 he
      rw [if_pos (List.mem_cons_of_mem _ he)]
      rw [if_pos he] at hch
      rw [hch]
      simp [Graph.store_weight, alookup_emapAdd_other _ _ _ _ hek]
    · by_cases hek : e = k
      · subst hek
        rw [if_pos (by simp)]
        rw [if_neg he] at hch
        rw [hch]
        simp [Graph.store_weight, alookup_emapAdd_self]
      · rw [if_neg (by simp [hek, he])]
        rw [if_neg he] at hch
        rw [hch]
        simp [Graph.store_weight,
          alookup_emapAdd_other _ _ _ _ (fun h => hek h.symm)]

theorem Graph_algebra_fold_error_of_bad (f : Edge → Int) :
    ∀ (ks : List Edge) (g : Graph),
    (¬ ∀ e ∈ ks, ¬(e.1 = pnone ∨ e.2 = pnone)) →
    Graph.algebra_fold f ks g = Except.error graphErrorMsg
  | [], _, h => absurd (by simp) h
  | k :: rest, g, h => by
    by_cases hk : k.1 = pnone ∨ k.2 = pnone
    · simp [Graph.algebra_fold, Graph_map_edge_bad g k hk]
    · have hrest : ¬ ∀ e ∈ rest, ¬(e.1 = pnone ∨ e.2 = pnone) := by
        intro hall
        refine h ?_
        intro e he
        rcases List.mem_cons.mp he with h1 | h2
        · subst h1; exact hk
        · exact hall e h2
      simp [Graph.algebra_fold, Graph_map_edge_ok g k hk,
        Graph_algebra_fold_error_of_bad f rest _ hrest]

theorem Bigraph_op_comm_aux (f1 f2 : Edge → Int) (ks1 ks2 : List Edge)
    (hnd1 : ks1.Nodup) (hnd2 : ks2.Nodup)
    (hmem : ∀ e, e ∈ ks1 ↔ e ∈ ks2) (hval : ∀ e, f1 e = f2 e) :
    exTablesEq (Bigraph.algebra_fold f1 ks1 Bigraph.empty)
      (Bigraph.algebra_fold f2 ks2 Bigraph.empty) := by
  by_cases hgood : ∀ e ∈ ks1, ¬(e.1 = pnone ∨ e.2 = pnone)
  · obtain ⟨g1, hg1, hc1⟩ := Bigraph_algebra_fold_ok f1 ks1 Bigraph.empty hnd1 hgood
    obtain ⟨g2, hg2, hc2⟩ := Bigraph_algebra_fold_ok f2 ks2 Bigraph.empty hnd2
      (fun e he => hgood e ((hmem e).mpr he))
    rw [hg1, hg2]
    simp only [exTablesEq, edgeTablesEq]
    intro e
    rw [hc1 e, hc2 e]
    by_cases he : e ∈ ks1
    · rw [if_pos he, if_pos ((hmem e).mp he), hval e]
    · rw [if_neg he, if_neg (fun h => he ((hmem e).mpr h))]
  · have hbad2 : ¬ ∀ e ∈ ks2, ¬(e.1 = pnone ∨ e.2 = pnone) :=
      fun hall => hgood (fun e he => hall e ((hmem e).mp he))
    rw [Bigraph_algebra_fold_error_of_bad f1 ks1 _ hgood,
        Bigraph_algebra_fold_error_of_bad f2 ks2 _ hbad2]
    simp [exTablesEq]

theorem Graph_op_comm_aux (f1 f2 : Edge → Int) (ks1 ks2 : List Edge)
    (hnd1 : ks1.Nodup) (hnd2 : ks2.Nodup)
    (hmem : ∀ e, e ∈ ks1 ↔ e ∈ ks2) (hval : ∀ e, f1 e = f2 e) :
    exTablesEqG (Graph.algebra_fold f1 ks1 Graph.empty)
      (Graph.algebra_fold f2 ks2 Graph.empty) := by
  by_cases hgood : ∀ e ∈ ks1, ¬(e.1 = pnone ∨ e.2 = pnone)
  · obtain ⟨g1, hg1, hc1⟩ := Graph_algebra_fold_ok f1 ks1 Graph.empty hnd1 hgood
    obtain ⟨g2, hg2, hc2⟩ := Graph_algebra_fold_ok f2 ks2 Graph.empty hnd2
      (fun e he => hgood e ((hmem e).mpr he))
    rw [hg1, hg2]
    simp only [exTablesEqG, edgeTablesEq]
    intro e
    rw [hc1 e, hc2 e]
    by_cases he : e ∈ ks1
    · rw [if_pos he, if_pos ((hmem e).mp he), hval e]
    · rw [if_neg he, if_neg (fun h => he ((hmem e).mpr h))]
  · have hbad2 : ¬ ∀ e ∈ ks2, ¬(e.1 = pnone ∨ e.2 = pnone) :=
      fun hall => hgood (fun e he => hall e ((hmem e).mp he))
    rw [Graph_algebra_fold_error_of_bad f1 ks1 _ hgood,
        Graph_algebra_fold_error_of_bad f2 ks2 _ hbad2]
    simp [exTablesEqG]

/-- C2: for every two graphs of the same variant (with the default integer
weights), `A | B == B | A` and `A & B == B & A`, where `==` is `__eq__`,
i.e. equality of the edge-key-to-weight tables; this holds for `Bigraph` and
`Graph` alike (and when a `None`-endpoint key makes the operator raise, both
orders raise the same `GraphError`). -/
theorem c2_union_intersection_commutative :
    (∀ A B : Bigraph, exTablesEq (A.or B) (B.or A) ∧ exTablesEq (A.and B) (B.and A)) ∧
    (∀ A B : Graph, exTablesEqG (A.or B) (B.or A) ∧ exTablesEqG (A.and B) (B.and A)) := by
  refine ⟨fun A B => ⟨?_, ?_⟩, fun A B => ⟨?_, ?_⟩⟩
  · exact Bigraph_op_comm_aux _ _ _ _ (List.nodup_dedup _) (List.nodup_dedup _)
      (fun e => by simp [List.mem_dedup, List.mem_append]; exact Or.comm)
      (fun e => Int.add_comm _ _)
  · exact Bigraph_op_comm_aux _ _ _ _ ((List.nodup_dedup _).filter _)
      ((List.nodup_dedup _).filter _)
      (fun e => by simp [List.mem_filter, List.mem_dedup, and_comm])
      (fun e => min_comm _ _)
  · exact Graph_op_comm_aux _ _ _ _ (List.nodup_dedup _) (List.nodup_dedup _)
      (fun e => by simp [List.mem_dedup, List.mem_append]; exact Or.comm)
      (fun e => Int.add_comm _ _)
  · exact Graph_op_comm_aux _ _ _ _ ((List.nodup_dedup _).filter _)
      ((List.nodup_dedup _).filter _)
      (fun e => by simp [List.mem_filter, List.mem_dedup, and_comm])
      (fun e => min_comm _ _)

theorem Bigraph_and_empty_of_disjoint (C B : Bigraph)
    (h : ∀ e ∈ C.edges.map Prod.fst, ¬ e ∈ B.edges.map Prod.fst) :
    C.and B = Except.ok Bigraph.empty := by
  have hnil : ((C.edges.map Prod.fst).dedup).filter
      (fun e => e ∈ B.edges.map Prod.fst) = [] := by
    rw [List.filter_eq_nil_iff]
    intro e he
    simpa using h e (List.mem_dedup.mp he)
  show Bigraph.algebra_fold
    (fun e => min ((alookup e C.edges).getD 0) ((alookup e B.edges).getD 0))
    (((C.edges.map Prod.fst).dedup).filter (fun e => e ∈ B.edges.map Prod.fst))
    Bigraph.empty = Except.ok Bigraph.empty
  rw [hnil]
  rfl

theorem Graph_and_empty_of_disjoint (C B : Graph)
    (h : ∀ e ∈ C.edges.map Prod.fst, ¬ e ∈ B.edges.map Prod.fst) :
    C.and B = Except.ok Graph.empty := by
  have hnil : ((C.edges.map Prod.fst).dedup).filter
      (fun e => e ∈ B.edges.map Prod.fst) = [] := by
    rw [List.filter_eq_nil_iff]
    intro e he
    simpa using h e (List.mem_dedup.mp he)
  show Graph.algebra_fold
    (fun e => min ((alookup e C.edges).getD 0) ((alookup e B.edges).getD 0))
    (((C.edges.map Prod.fst).dedup).filter (fun e => e ∈ B.edges.map Prod.fst))
    Graph.empty = Except.ok Graph.empty
  rw [hnil]
  rfl

/-- C9: for two same-variant graphs with `A ⊇ B` (every edge of `B` present in
`A` with equal weight), the difference `A - B` succeeds and `(A - B) & B` has
an empty edge table, for both `Bigraph` and `Graph`. -/
theorem c9_difference_intersection_empty :
    (∀ A B : Bigraph, edgeKeysOk A.edges → edgeSuperset A.edges B.edges →
      ∃ C D, A.sub B = Except.ok C ∧ C.and B = Except.ok D ∧ D.edges = []) ∧
    (∀ A B : Graph, edgeKeysOk A.edges → edgeSuperset A.edges B.edges →
      ∃ C D, A.sub B = Except.ok C ∧ C.and B = Except.ok D ∧ D.edges = []) := by
  constructor
  · intro A B hok _
    have hgood : ∀ e ∈ ((A.edges.map Prod.fst).dedup).filter
        (fun e => ¬ e ∈ B.edges.map Prod.fst), ¬(e.1 = pnone ∨ e.2 = pnone) := by
      intro e he
      have heA : e ∈ A.edges.map Prod.fst :=
        List.mem_dedup.mp (List.mem_of_mem_filter he)
      obtain ⟨p, hp, hpe⟩ := List.mem_map.mp heA
      have := hok p hp
      rw [not_or]
      subst hpe
      exact this
    obtain ⟨C, hC, hchar⟩ := Bigraph_algebra_fold_ok
      (fun e => (alookup e A.edges).getD 0)
      (((A.edges.map Prod.fst).dedup).filter (fun e => ¬ e ∈ B.edges.map Prod.fst))
      Bigraph.empty ((List.nodup_dedup _).filter _) hgood
    have hsubeq : A.sub B = Except.ok C := by
      show Bigraph.algebra_fold (fun e => (alookup e A.edges).getD 0)
        (((A.edges.map Prod.fst).dedup).filter (fun e => ¬ e ∈ B.edges.map Prod.fst))
        Bigraph.empty = Except.ok C
      exact hC
    have hdisj : ∀ e ∈ C.edges.map Prod.fst, ¬ e ∈ B.edges.map Prod.fst := by
      intro e he
      have hs : (alookup e C.edges).isSome = true := (alookup_isSome_iff _ _).mpr he
      by_cases hin : e ∈ ((A.edges.map Prod.fst).dedup).filter
          (fun e => ¬ e ∈ B.edges.map Prod.fst)
      · have := List.of_mem_filter hin
        simpa using this
      · rw [hchar e, if_neg hin] at hs
        simp [Bigraph.empty, alookup] at hs
    exact ⟨C, Bigraph.empty, hsubeq, Bigraph_and_empty_of_disjoint C B hdisj, rfl⟩
  · intro A B hok _
    have hgood : ∀ e ∈ ((A.edges.map Prod.fst).dedup).filter
        (fun e => ¬ e ∈ B.edges.map Prod.fst), ¬(e.1 = pnone ∨ e.2 = pnone) := by
      intro e he
      have heA : e ∈ A.edges.map Prod.fst :=
        List.mem_dedup.mp (List.mem_of_mem_filter he)
      obtain ⟨p, hp, hpe⟩ := List.mem_map.mp heA
      have := hok p hp
      rw [not_or]
      subst hpe
      exact this
    obtain ⟨C, hC, hchar⟩ := Graph_algebra_fold_ok
      (fun e => (alookup e A.edges).getD 0)
      (((A.edges.map Prod.fst).dedup).filter (fun e => ¬ e ∈ B.edges.map Prod.fst))
      Graph.empty ((List.nodup_dedup _).filter _) hgood
    have hsubeq : A.sub B = Except.ok C := by
      show Graph.algebra_fold (fun e => (alookup e A.edges).getD 0)
        (((A.edges.map Prod.fst).dedup).filter (fun e => ¬ e ∈ B.edges.map Prod.fst))
        Graph.empty = Except.ok C
      exact hC
    have hdisj : ∀ e ∈ C.edges.map Prod.fst, ¬ e ∈ B.edges.map Prod.fst := by
      intro e he
      have hs : (alookup e C.edges).isSome = true := (alookup_isSome_iff _ _).mpr he
      by_cases hin : e ∈ ((A.edges.map Prod.fst).dedup).filter
          (fun e => ¬ e ∈ B.edges.map Prod.fst)
      · have := List.of_mem_filter hin
        simpa using this
      · rw [hchar e, if_neg hin] at hs
        simp [Graph.empty, alookup] at hs
    exact ⟨C, Graph.empty, hsubeq, Graph_and_empty_of_disjoint C B hdisj, rfl⟩

/-- C9 witness at `A = B = ` the one-edge graphs. -/
theorem c9_difference_intersection_empty_witness :
    (∃ C D, Bigraph.sub c5bg c5bg = Except.ok C ∧ C.and c5bg = Except.ok D ∧ D.edges = []) ∧
    (∃ C D, Graph.sub c5g c5g = Except.ok C ∧ C.and c5g = Except.ok D ∧ D.edges = []) :=
  ⟨c9_difference_intersection_empty.1 c5bg c5bg (by unfold edgeKeysOk; decide) (fun _ _ h => h),
   c9_difference_intersection_empty.2 c5g c5g (by unfold edgeKeysOk; decide) (fun _ _ h => h)⟩

theorem insertUnique_nodup {l : List PyVal} {x : PyVal} (h : l.Nodup) :
    (insertUnique l x).Nodup := by
  unfold insertUnique
  by_cases hx : x ∈ l
  · simpa [hx]
  · simp [hx, List.nodup_append, h]

theorem Graph_bkNewPush_compsub (g : Graph) (d0 : Int) (nd : Option PyVal)
    (disc : Int) (ncs ncands nnots : List PyVal) :
    ∀ p ∈ g.bkNewPush d0 nd disc ncs ncands nnots, ∀ f, p = Sum.inl f →
      f.compsub = ncs := by
  intro p hp f hf
  subst hf
  cases nd with
  | none =>
    simp [Graph.bkNewPush] at hp
    subst hp
    rfl
  | some d =>
    by_cases hd : d ∈ nnots
    · by_cases h2 : (0 : Int) < disc - 1
      · simp [Graph.bkNewPush, hd, h2] at hp
        subst hp
        rfl
      · simp [Graph.bkNewPush, hd, h2] at hp
    · simp [Graph.bkNewPush, hd] at hp
      subst hp
      rfl

theorem Graph_bkScan_compsubs (g : Graph) (d0 : Int) (cs : List PyVal)
    (nd : Option PyVal) (disc : Int) (hcs : cs.Nodup) :
    ∀ (us cands nots : List PyVal) (pushes : List BKPush),
    (∀ p ∈ pushes, ∀ f, p = Sum.inl f → f.compsub.Nodup) →
    ∀ p ∈ (g.bkScan d0 cs nd disc us cands nots pushes).2.2, ∀ f, p = Sum.inl f →
      f.compsub.Nodup
  | [], cands, nots, pushes, hp => by
    simpa [Graph.bkScan] using hp
  | u :: us, cands, nots, pushes, hp => by
    simp only [Graph.bkScan]
    split
    case isTrue hq =>
      refine Graph_bkScan_compsubs g d0 cs nd disc hcs us _ _ _ ?_
      intro p hmem f hf
      rcases List.mem_append.mp hmem with hmem1 | hmem2
      · rcases List.mem_append.mp hmem1 with hmem3 | hmem4
        · exact hp p hmem3 f hf
        · have hcomp := Graph_bkNewPush_compsub g d0 nd disc (insertUnique cs u) _ _ p hmem4 f hf
          rw [hcomp]
          exact insertUnique_nodup hcs
      · simp only [List.mem_singleton] at hmem2
        subst hmem2
        cases hf
    case isFalse hq =>
      exact Graph_bkScan_compsubs g d0 cs nd disc hcs us _ _ _ hp

theorem Graph_bkRun_sizes (g : Graph) (k : Nat) (d0 : Int) :
    ∀ (fuel : Nat) (stack : List GFrame),
    (∀ fr ∈ stack, fr.compsub.Nodup) →
    ∀ s ∈ (g.bkRun k d0 fuel stack).1, s.Nodup ∧ k ≤ s.length
  | 0, stack, _ => by simp [Graph.bkRun]
  | fuel + 1, [], _ => by simp [Graph.bkRun]
  | fuel + 1, fr :: rest, hnd => by
    intro s hs
    rw [Graph.bkRun] at hs
    simp only [List.mem_append] at hs
    by_cases hg : (fr.cands.isEmpty ∧ fr.nots.isEmpty ∧ k ≤ fr.compsub.length)
    · have hstep : g.bkStep k d0 fr rest = ([fr.compsub], rest) := by
        rw [Graph.bkStep, if_pos hg]
      rcases hs with hs1 | hs2
      · rw [hstep] at hs1
        simp only [List.mem_singleton] at hs1
        subst hs1
        exact ⟨hnd fr (by simp), hg.2.2⟩
      · rw [hstep] at hs2
        exact Graph_bkRun_sizes g k d0 fuel rest
          (fun f hf => hnd f (List.mem_cons_of_mem _ hf)) s hs2
    · have hstep : g.bkStep k d0 fr rest =
          ([], ((g.bkScan d0 fr.compsub fr.nd fr.disc fr.cands fr.cands fr.nots []).2.2.map
            (bkMaterialize fr.compsub
              (g.bkScan d0 fr.compsub fr.nd fr.disc fr.cands fr.cands fr.nots []).1
              (g.bkScan d0 fr.compsub fr.nd fr.disc fr.cands fr.cands fr.nots []).2.1)).reverse
            ++ rest) := by
        rw [Graph.bkStep, if_neg hg]
      rcases hs with hs1 | hs2
      · rw [hstep] at hs1
        simp at hs1
      · rw [hstep] at hs2
        refine Graph_bkRun_sizes g k d0 fuel _ ?_ s hs2
        intro f hf
        rcases List.mem_append.mp hf with hf1 | hf2
        · rw [List.mem_reverse] at hf1
          obtain ⟨p, hpmem, hpf⟩ := List.mem_map.mp hf1
          have hfrnd : fr.compsub.Nodup := hnd fr (by simp)
          have hscan := Graph_bkScan_compsubs g d0 fr.compsub fr.nd fr.disc hfrnd
            fr.cands fr.cands fr.nots [] (by simp) p hpmem
          cases p with
          | inl f' =>
            have hnodup := hscan f' rfl
            rw [← hpf]
            simpa [bkMaterialize] using hnodup
          | inr pr =>
            rw [← hpf]
            simpa [bkMaterialize] using hfrnd
        · exact hnd f (List.mem_cons_of_mem _ hf2)

theorem Graph_bkRun_sizes_init (g : Graph) (k : Nat) (d0 : Int) (ss : List PyVal)
    (fuel : Nat) :
    ∀ s ∈ (g.bkRun k d0 fuel [⟨[], ss, [], Option.none, d0⟩]).1, s.Nodup ∧ k ≤ s.length :=
  Graph_bkRun_sizes g k d0 fuel _ (by
    intro fr hfr
    simp only [List.mem_singleton] at hfr
    subst hfr
    exact List.nodup_nil)

/-- C8: `Graph.find_cliques(min_clique_size=k)` emits a vertex set only when
the popped frame's candidate set and not-set are both empty and the compsub
has at least `k` vertices (in which case that compsub is exactly what is
emitted); consequently every yielded set is a duplicate-free list of at least
`k` vertices, so with the default `k = 3` no 1- or 2-vertex clique is ever
emitted. -/
theorem c8_min_clique_size_gate :
    (∀ (g : Graph) (k : Nat) (d0 : Int) (fr : GFrame) (rest : List GFrame),
      (g.bkStep k d0 fr rest).1 ≠ [] →
      fr.cands = [] ∧ fr.nots = [] ∧ k ≤ fr.compsub.length ∧
        (g.bkStep k d0 fr rest).1 = [fr.compsub]) ∧
    (∀ (g : Graph) (nodes : Option (List PyVal)) (k fuel : Nat),
      ∀ s ∈ (g.find_cliques nodes k fuel).1, s.Nodup ∧ k ≤ s.length) := by
  constructor
  · intro g k d0 fr rest hne
    by_cases hg : (fr.cands.isEmpty ∧ fr.nots.isEmpty ∧ k ≤ fr.compsub.length)
    · have hstep : g.bkStep k d0 fr rest = ([fr.compsub], rest) := by
        rw [Graph.bkStep, if_pos hg]
      exact ⟨List.isEmpty_iff.mp hg.1, List.isEmpty_iff.mp hg.2.1, hg.2.2, by rw [hstep]⟩
    · exfalso
      refine hne ?_
      rw [Graph.bkStep, if_neg hg]
  · intro g nodes k fuel s hs
    exact Graph_bkRun_sizes_init g k _ _ fuel s hs

/-- C8 witness: on the triangle graph with `k = 3`, the frame with empty
candidate and not sets emits exactly its 3-element compsub, and the full run
emits the set `{1, 2, 3}`. -/
theorem c8_min_clique_size_gate_witness :
    (triGraph.bkStep 3 3 ⟨[pi 1, pi 2, pi 3], [], [], Option.none, 3⟩ []).1
      = [[pi 1, pi 2, pi 3]] ∧
    ([pi 1, pi 2, pi 3].Nodup ∧ 3 ≤ [pi 1, pi 2, pi 3].length) :=
  ⟨(c8_min_clique_size_gate.1 triGraph 3 3 ⟨[pi 1, pi 2, pi 3], [], [], Option.none, 3⟩ []
      (by decide)).2.2.2,
   c8_min_clique_size_gate.2 triGraph Option.none 3 30 [pi 1, pi 2, pi 3] (by decide)⟩

theorem ccVisit_ok_spec {α σ : Type} [DecidableEq α]
    (rec : α → α → σ → Except String σ) (a : α) :
    ∀ (l : List α) (s : σ) (rem stk : List α) (s' : σ) (rem' stk' : List α),
    rem.Nodup →
    ccVisit rec a l s rem stk = Except.ok (s', rem', stk') →
    recFold rec a l s = Except.ok s' ∧
    rem'.Sublist rem ∧
    (∀ x, x ∈ rem' ↔ (x ∈ rem ∧ ¬ x ∈ l)) ∧
    (∀ y, y ∈ stk' ↔ (y ∈ stk ∨ (y ∈ l ∧ y ∈ rem)))
  | [], s, rem, stk, s', rem', stk', _, h => by
    simp only [ccVisit, Except.ok.injEq, Prod.mk.injEq] at h
    obtain ⟨rfl, rfl, rfl⟩ := h
    exact ⟨rfl, List.Sublist.refl _, by simp, by simp⟩
  | nb :: rest, s, rem, stk, s', rem', stk', hnd, h => by
    simp only [ccVisit] at h
    rcases hrec : rec a nb s with m | s1
    · simp only [hrec] at h
      exact absurd h (by simp)
    · simp only [hrec] at h
      by_cases hmem : nb ∈ rem
      · rw [if_pos hmem] at h
        obtain ⟨h1, h2, h3, h4⟩ := ccVisit_ok_spec rec a rest s1 (rem.erase nb)
          (nb :: stk) s' rem' stk' (hnd.erase nb) h
        refine ⟨?_, h2.trans (List.erase_sublist _ _), ?_, ?_⟩
        · simp only [recFold, hrec]
          exact h1
        · intro x
          rw [h3 x]
          constructor
          · rintro ⟨hx1, hx2⟩
            have hx1' := (List.Nodup.mem_erase_iff hnd).mp hx1
            refine ⟨hx1'.2, ?_⟩
            simp only [List.mem_cons, not_or]
            exact ⟨hx1'.1, hx2⟩
          · rintro ⟨hx1, hx2⟩
            simp only [List.mem_cons, not_or] at hx2
            exact ⟨(List.Nodup.mem_erase_iff hnd).mpr ⟨hx2.1, hx1⟩, hx2.2⟩
        · intro y
          rw [h4 y]
          constructor
          · rintro (hy | ⟨hy1, hy2⟩)
            · rcases List.mem_cons.mp hy with rfl | hy'
              · exact Or.inr ⟨by simp, hmem⟩
              · exact Or.inl hy'
            · exact Or.inr ⟨List.mem_cons_of_mem _ hy1, List.mem_of_mem_erase hy2⟩
          · rintro (hy | ⟨hy1, hy2⟩)
            · exact Or.inl (List.mem_cons_of_mem _ hy)
            · rcases List.mem_cons.mp hy1 with rfl | hy1'
              · exact Or.inl (by simp)
              · by_cases hyb : y = nb
                · subst hyb
                  exact Or.inl (by simp)
                · exact Or.inr ⟨hy1', (List.Nodup.mem_erase_iff hnd).mpr ⟨hyb, hy2⟩⟩
      · rw [if_neg hmem] at h
        obtain ⟨h1, h2, h3, h4⟩ := ccVisit_ok_spec rec a rest s1 rem stk s' rem' stk' hnd h
        refine ⟨by simp only [recFold, hrec]; exact h1, h2, ?_, ?_⟩
        · intro x
          rw [h3 x]
          constructor
          · rintro ⟨hx1, hx2⟩
            refine ⟨hx1, ?_⟩
            simp only [List.mem_cons, not_or]
            exact ⟨fun hxe => hmem (hxe ▸ hx1), hx2⟩
          · rintro ⟨hx1, hx2⟩
            simp only [List.mem_cons, not_or] at hx2
            exact ⟨hx1, hx2.2⟩
        · intro y
          rw [h4 y]
          constructor
          · rintro (hy | ⟨hy1, hy2⟩)
            · exact Or.inl hy
            · exact Or.inr ⟨List.mem_cons_of_mem _ hy1, hy2⟩
          · rintro (hy | ⟨hy1, hy2⟩)
            · exact Or.inl hy
            · rcases List.mem_cons.mp hy1 with rfl | hy1'
              · exact absurd hy2 hmem
              · exact Or.inr ⟨hy1', hy2⟩

theorem ccVisit_ok_exists {α σ : Type} [DecidableEq α]
    (rec : α → α → σ → Except String σ) (a : α) :
    ∀ (l : List α), (∀ b ∈ l, ∀ s : σ, ∃ s1, rec a b s = Except.ok s1) →
    ∀ (s : σ) (rem stk : List α),
    ∃ s1 rem1 stk1, ccVisit rec a l s rem stk = Except.ok (s1, rem1, stk1) ∧
      rem1.length + stk1.length = rem.length + stk.length
  | [], _, s, rem, stk => ⟨s, rem, stk, rfl, rfl⟩
  | nb :: rest, hrec, s, rem, stk => by
    obtain ⟨s1, hs1⟩ := hrec nb (by simp) s
    by_cases hmem : nb ∈ rem
    · obtain ⟨s2, rem2, stk2, hcc, hlen⟩ := ccVisit_ok_exists rec a rest
        (fun b hb s0 => hrec b (List.mem_cons_of_mem _ hb) s0) s1 (rem.erase nb) (nb :: stk)
      refine ⟨s2, rem2, stk2, ?_, ?_⟩
      · simp only [ccVisit, hs1, if_pos hmem]
        exact hcc
      · rw [hlen, List.length_erase_of_mem hmem, List.length_cons]
        have := List.length_pos_of_mem hmem
        omega
    · obtain ⟨s2, rem2, stk2, hcc, hlen⟩ := ccVisit_ok_exists rec a rest
        (fun b hb s0 => hrec b (List.mem_cons_of_mem _ hb) s0) s1 rem stk
      exact ⟨s2, rem2, stk2, by simp only [ccVisit, hs1, if_neg hmem]; exact hcc, hlen⟩

theorem ccInner_done_spec {α σ : Type} [DecidableEq α] (nbs : α → List α)
    (rec : α → α → σ → Except String σ) :
    ∀ (fuel : Nat) (s : σ) (rem stk : List α) (s' : σ) (rem' : List α),
    rem.Nodup →
    ccInner nbs rec fuel s rem stk = RunRes.done (s', rem') →
    ∃ pops : List α,
      roundFold nbs rec pops s = Except.ok s' ∧
      rem'.Sublist rem ∧
      (∀ x, x ∈ pops ↔ (x ∈ stk ∨ (x ∈ rem ∧ ¬ x ∈ rem'))) ∧
      (∀ c ∈ pops, ∀ b ∈ nbs c, (b ∈ pops ∨ ¬ b ∈ rem) ∧ ¬ b ∈ rem')
  | 0, s, rem, stk, s', rem', _, h => by simp [ccInner] at h
  | fuel + 1, s, rem, [], s', rem', _, h => by
    simp only [ccInner, RunRes.done.injEq, Prod.mk.injEq] at h
    obtain ⟨rfl, rfl⟩ := h
    refine ⟨[], rfl, List.Sublist.refl _, by simp, by simp⟩
  | fuel + 1, s, rem, node :: stk0, s', rem', hnd, h => by
    simp only [ccInner] at h
    rcases hv : ccVisit rec node (nbs node) s rem stk0 with m | ⟨s1, rem1, stk1⟩
    · simp only [hv] at h
      exact absurd h (by simp)
    · simp only [hv] at h
      obtain ⟨hfold, hsub1, hmrem, hmstk⟩ :=
        ccVisit_ok_spec rec node (nbs node) s rem stk0 s1 rem1 stk1 hnd hv
      have hnd1 : rem1.Nodup := hnd.sublist hsub1
      obtain ⟨pops1, hrf, hsub2, hpops, hclos⟩ :=
        ccInner_done_spec nbs rec fuel s1 rem1 stk1 s' rem' hnd1 h
      refine ⟨node :: pops1, ?_, hsub2.trans hsub1, ?_, ?_⟩
      · simp only [roundFold, hfold]
        exact hrf
      · intro x
        simp only [List.mem_cons]
        constructor
        · rintro (rfl | hx)
          · exact Or.inl (Or.inl rfl)
          · rcases (hpops x).mp hx with hx1 | ⟨hx2, hx3⟩
            · rcases (hmstk x).mp hx1 with hy | ⟨hy1, hy2⟩
              · exact Or.inl (Or.inr hy)
              · refine Or.inr ⟨hy2, fun hx' => ?_⟩
                exact ((hmrem x).mp (hsub2.subset hx')).2 hy1
            · exact Or.inr ⟨((hmrem x).mp hx2).1, hx3⟩
        · rintro (hx | ⟨hx1, hx2⟩)
          · rcases hx with rfl | hx'
            · exact Or.inl rfl
            · exact Or.inr ((hpops x).mpr (Or.inl ((hmstk x).mpr (Or.inl hx'))))
          · by_cases hnb : x ∈ nbs node
            · exact Or.inr ((hpops x).mpr (Or.inl ((hmstk x).mpr (Or.inr ⟨hnb, hx1⟩))))
            · exact Or.inr ((hpops x).mpr (Or.inr ⟨(hmrem x).mpr ⟨hx1, hnb⟩, hx2⟩))
      · intro c hc b hb
        rcases List.mem_cons.mp hc with rfl | hc'
        · by_cases hbrem : b ∈ rem
          · have hbstk1 : b ∈ stk1 := (hmstk b).mpr (Or.inr ⟨hb, hbrem⟩)
            have hbpops1 : b ∈ pops1 := (hpops b).mpr (Or.inl hbstk1)
            refine ⟨Or.inl (List.mem_cons_of_mem _ hbpops1), fun hbr' => ?_⟩
            exact ((hmrem b).mp (hsub2.subset hbr')).2 hb
          · exact ⟨Or.inr hbrem, fun hbr' => hbrem ((hsub2.trans hsub1).subset hbr')⟩
        · obtain ⟨hor, hnr'⟩ := hclos c hc' b hb
          refine ⟨?_, hnr'⟩
          rcases hor with h1 | h2
          · exact Or.inl (List.mem_cons_of_mem _ h1)
          · by_cases hbrem : b ∈ rem
            · have hbnb : b ∈ nbs node := by
                by_contra hnb
                exact h2 ((hmrem b).mpr ⟨hbrem, hnb⟩)
              have hbstk1 : b ∈ stk1 := (hmstk b).mpr (Or.inr ⟨hbnb, hbrem⟩)
              exact Or.inl (List.mem_cons_of_mem _ ((hpops b).mpr (Or.inl hbstk1)))
            · exact Or.inr hbrem

theorem ccInner_done_of_fuel {α σ : Type} [DecidableEq α] (nbs : α → List α)
    (rec : α → α → σ → Except String σ)
    (hrec : ∀ (a b : α), b ∈ nbs a → ∀ s : σ, ∃ s1, rec a b s = Except.ok s1) :
    ∀ (fuel : Nat) (s : σ) (rem stk : List α),
    rem.length + stk.length < fuel →
    ∃ s' rem', ccInner nbs rec fuel s rem stk = RunRes.done (s', rem')
  | 0, _, _, _, h => absurd h (by omega)
  | fuel + 1, s, rem, [], _ => ⟨s, rem, by simp [ccInner]⟩
  | fuel + 1, s, rem, node :: stk0, hlt => by
    obtain ⟨s1, rem1, stk1, hcc, hlen⟩ := ccVisit_ok_exists rec node (nbs node)
      (fun b hb s0 => hrec node b hb s0) s rem stk0
    obtain ⟨s', rem', hdone⟩ := ccInner_done_of_fuel nbs rec hrec fuel s1 rem1 stk1 (by
      rw [hlen]
      simp only [List.length_cons] at hlt
      omega)
    exact ⟨s', rem', by simp only [ccInner, hcc]; exact hdone⟩

theorem ccOuter_done_spec {α γ : Type} [DecidableEq α] (nbs : α → List α)
    (rec : α → α → γ × EdgeMap → Except String (γ × EdgeMap)) (comp0 : γ)
    (hsym : ∀ a b, a ∈ nbs b ↔ b ∈ nbs a) :
    ∀ (fuel : Nat) (es : EdgeMap) (rem : List α) (comps : List γ) (es' : EdgeMap),
    rem.Nodup →
    (∀ a, ¬ a ∈ rem → ∀ b ∈ nbs a, ¬ b ∈ rem) →
    ccOuter nbs rec comp0 fuel es rem = RunRes.done (comps, es') →
    ∃ popsL : List (List α),
      List.Forall₂ (fun ps c => ∃ es0 es1,
        roundFold nbs rec ps (comp0, es0) = Except.ok (c, es1)) popsL comps ∧
      (∀ x, x ∈ rem ↔ ∃ ps ∈ popsL, x ∈ ps) ∧
      List.Pairwise (fun p q => ∀ x, x ∈ p → ¬ x ∈ q) popsL ∧
      (∀ ps ∈ popsL, ∀ a ∈ ps, ∀ b ∈ nbs a, b ∈ ps)
  | 0, es, rem, comps, es', _, _, h => by simp [ccOuter] at h
  | fuel + 1, es, [], comps, es', _, _, h => by
    simp only [ccOuter, RunRes.done.injEq, Prod.mk.injEq] at h
    obtain ⟨rfl, rfl⟩ := h
    exact ⟨[], List.Forall₂.nil, by simp, by simp, by simp⟩
  | fuel + 1, es, r :: rest, comps, es', hnd, hcl, h => by
    simp only [ccOuter] at h
    rcases hi : ccInner nbs rec (rest.length + 2) (comp0, es) rest [r]
      with ⟨⟨comp, es1⟩, rem1⟩ | m | _
    case fail =>
      simp only [hi] at h
      exact absurd h (by simp)
    case outOfFuel =>
      simp only [hi] at h
      exact absurd h (by simp)
    simp only [hi] at h
    rcases ho : ccOuter nbs rec comp0 fuel es1 rem1 with ⟨comps1, es2⟩ | m | _
    case fail =>
      simp only [ho] at h
      exact absurd h (by simp)
    case outOfFuel =>
      simp only [ho] at h
      exact absurd h (by simp)
    simp only [ho, RunRes.done.injEq, Prod.mk.injEq] at h
    obtain ⟨rfl, rfl⟩ := h
    obtain ⟨p0, hrf0, hsub0, hp0, hc0⟩ := ccInner_done_spec nbs rec (rest.length + 2)
      (comp0, es) rest [r] (comp, es1) rem1 (hnd.of_cons) hi
    have hnd1 : rem1.Nodup := (hnd.of_cons).sublist hsub0
    have hrnotrest : ¬ r ∈ rest := (List.nodup_cons.mp hnd).1
    have hcl1 : ∀ a, ¬ a ∈ rem1 → ∀ b ∈ nbs a, ¬ b ∈ rem1 := by
      intro a ha b hb
      by_cases harem : a ∈ r :: rest
      · have hap0 : a ∈ p0 := by
          rcases List.mem_cons.mp harem with rfl | ha'
          · exact (hp0 a).mpr (Or.inl (by simp))
          · exact (hp0 a).mpr (Or.inr ⟨ha', ha⟩)
        exact (hc0 a hap0 b hb).2
      · intro hbrem1
        exact hcl a harem b hb (List.mem_cons_of_mem _ (hsub0.subset hbrem1))
    obtain ⟨popsL1, hfa, hcov, hpair, hclos⟩ := ccOuter_done_spec nbs rec comp0 hsym
      fuel es1 rem1 comps1 es2 hnd1 hcl1 ho
    refine ⟨p0 :: popsL1, List.Forall₂.cons ⟨es, es1, hrf0⟩ hfa, ?_, ?_, ?_⟩
    · intro x
      constructor
      · intro hx
        by_cases hx1 : x ∈ rem1
        · obtain ⟨ps, hps, hxps⟩ := (hcov x).mp hx1
          exact ⟨ps, List.mem_cons_of_mem _ hps, hxps⟩
        · refine ⟨p0, by simp, ?_⟩
          rcases List.mem_cons.mp hx with rfl | hx'
          · exact (hp0 x).mpr (Or.inl (by simp))
          · exact (hp0 x).mpr (Or.inr ⟨hx', hx1⟩)
      · rintro ⟨ps, hps, hxps⟩
        rcases List.mem_cons.mp hps with rfl | hps'
        · rcases (hp0 x).mp hxps with h1 | ⟨h2, _⟩
          · simp only [List.mem_singleton] at h1
            subst h1
            simp
          · exact List.mem_cons_of_mem _ h2
        · exact List.mem_cons_of_mem _ (hsub0.subset ((hcov x).mpr ⟨ps, hps', hxps⟩))
    · refine List.Pairwise.cons ?_ hpair
      intro q hq x hxp0
      have hxnotrem1 : ¬ x ∈ rem1 := by
        rcases (hp0 x).mp hxp0 with h1 | ⟨_, h3⟩
        · simp only [List.mem_singleton] at h1
          subst h1
          intro hr1
          exact hrnotrest (hsub0.subset hr1)
        · exact h3
      intro hxq
      exact hxnotrem1 ((hcov x).mpr ⟨q, hq, hxq⟩)
    · intro ps hps a ha b hb
      rcases List.mem_cons.mp hps with rfl | hps'
      · obtain ⟨hor, _⟩ := hc0 a ha b hb
        rcases hor with h1 | h2
        · exact h1
        · by_cases hbr : b = r
          · subst hbr
            exact (hp0 b).mpr (Or.inl (by simp))
          · exfalso
            have hbnot : ¬ b ∈ r :: rest := by
              simp only [List.mem_cons, not_or]
              exact ⟨hbr, h2⟩
            have hanot : ¬ a ∈ r :: rest := hcl b hbnot a ((hsym a b).mpr hb)
            refine hanot ?_
            rcases (hp0 a).mp ha with h1 | ⟨h2', _⟩
            · simp only [List.mem_singleton] at h1
              subst h1
              simp
            · exact List.mem_cons_of_mem _ h2'
      · exact hclos ps hps' a ha b hb

theorem ccOuter_done_of_fuel {α γ : Type} [DecidableEq α] (nbs : α → List α)
    (rec : α → α → γ × EdgeMap → Except String (γ × EdgeMap)) (comp0 : γ)
    (hrec : ∀ (a b : α), b ∈ nbs a → ∀ s : γ × EdgeMap, ∃ s1, rec a b s = Except.ok s1) :
    ∀ (fuel : Nat) (es : EdgeMap) (rem : List α), rem.Nodup → rem.length < fuel →
    ∃ comps es', ccOuter nbs rec comp0 fuel es rem = RunRes.done (comps, es')
  | 0, _, _, _, h => absurd h (by omega)
  | fuel + 1, es, [], _, _ => ⟨[], es, by simp [ccOuter]⟩
  | fuel + 1, es, r :: rest, hnd, hlt => by
    obtain ⟨⟨comp, es1⟩, rem1, hi⟩ := ccInner_done_of_fuel nbs rec hrec (rest.length + 2)
      (comp0, es) rest [r] (by simp)
    obtain ⟨_, _, hsub1, _, _⟩ := ccInner_done_spec nbs rec (rest.length + 2)
      (comp0, es) rest [r] (comp, es1) rem1 (hnd.of_cons) hi
    have hnd1 : rem1.Nodup := (hnd.of_cons).sublist hsub1
    obtain ⟨comps1, es2, ho⟩ := ccOuter_done_of_fuel nbs rec comp0 hrec fuel es1 rem1 hnd1 (by
      have := hsub1.length_le
      simp only [List.length_cons] at hlt
      omega)
    exact ⟨comp :: comps1, es2, by simp only [ccOuter, hi, ho]⟩

theorem alookup_mem {κ β : Type} [DecidableEq κ] :
    ∀ (m : List (κ × β)) (k : κ) (b : β), alookup k m = some b → (k, b) ∈ m
  | [], _, _, h => by simp [alookup] at h
  | (k', b') :: rest, k, b, h => by
    by_cases hk : k' = k
    · subst hk
      simp [alookup] at h
      subst h
      simp
    · simp only [alookup, if_neg hk] at h
      exact List.mem_cons_of_mem _ (alookup_mem rest k b h)

theorem alookup_eq_none {κ β : Type} [DecidableEq κ] (m : List (κ × β)) (k : κ) :
    alookup k m = Option.none ↔ ¬ k ∈ m.map Prod.fst := by
  rw [← alookup_isSome_iff m k]
  cases alookup k m <;> simp

theorem adjGet_mem_entry (m : AdjMap) (u v : PyVal) (h : v ∈ adjGet m u) :
    ∃ ns, (u, ns) ∈ m ∧ v ∈ ns := by
  unfold adjGet at h
  rcases hl : alookup u m with _ | ns
  · rw [hl] at h
    simp at h
  · rw [hl] at h
    exact ⟨ns, alookup_mem m u ns hl, h⟩

theorem adjGet_key_mem (m : AdjMap) (u v : PyVal) (h : v ∈ adjGet m u) :
    u ∈ m.map Prod.fst := by
  by_contra hu
  rw [← alookup_eq_none] at hu
  simp [adjGet, hu] at h

theorem adjAdd_keys_mem : ∀ (m : AdjMap) (k v x : PyVal),
    (x ∈ (adjAdd m k v).map Prod.fst ↔ (x ∈ m.map Prod.fst ∨ x = k))
  | [], k, v, x => by simp [adjAdd, eq_comm]
  | (k', vs) :: rest, k, v, x => by
    by_cases hk : k' = k
    · subst hk
      simp only [adjAdd, if_pos rfl]
      simp [eq_comm]
      tauto
    · simp only [adjAdd, if_neg hk, List.map_cons, List.mem_cons]
      rw [adjAdd_keys_mem rest k v x]
      tauto

theorem emapAdd_keys_mem : ∀ (m : EdgeMap) (e : Edge) (w : Int) (d : Edge),
    (d ∈ (emapAdd m e w).map Prod.fst ↔ (d ∈ m.map Prod.fst ∨ d = e))
  | [], e, w, d => by simp [emapAdd, eq_comm]
  | (e', w') :: rest, e, w, d => by
    by_cases he : e' = e
    · subst he
      simp only [emapAdd, if_pos rfl]
      simp [eq_comm]
      tauto
    · simp only [emapAdd, if_neg he, List.map_cons, List.mem_cons]
      rw [emapAdd_keys_mem rest e w d]
      tauto

theorem Bigraph_add_edge_ok_shape (comp : Bigraph) (u v : PyVal) (w : Int)
    (comp1 : Bigraph) (h : comp.add_edge u v w = Except.ok comp1) :
    comp1 = ⟨adjAdd comp.U2V u v, adjAdd comp.V2U v u, emapAdd comp.edges (u, v) w⟩ := by
  by_cases hbad : ((u, v) : Edge).1 = pnone ∨ ((u, v) : Edge).2 = pnone
  · rw [Bigraph.add_edge, Bigraph_map_edge_bad comp (u, v) hbad] at h
    exact absurd h (by simp)
  · rw [Bigraph.add_edge, Bigraph_map_edge_ok comp (u, v) hbad] at h
    simp only [Except.ok.injEq] at h
    rw [← h]
    rfl

theorem Graph_add_edge_ok_shape (comp : Graph) (u v : PyVal) (w : Int)
    (comp1 : Graph) (h : comp.add_edge u v w = Except.ok comp1) :
    comp1 = ⟨adjAdd (adjAdd comp.V2U u v) v u,
      emapAdd comp.edges (Graph.make_edge u v) w⟩ := by
  by_cases hbad : ((u, v) : Edge).1 = pnone ∨ ((u, v) : Edge).2 = pnone
  · rw [Graph.add_edge, Graph_map_edge_bad comp (u, v) hbad] at h
    exact absurd h (by simp)
  · rw [Graph.add_edge, Graph_map_edge_ok comp (u, v) hbad] at h
    simp only [Except.ok.injEq] at h
    rw [← h]
    rfl

theorem taggedVerts_mem (c : Bigraph) (tt : Bool) (x : PyVal) :
    ((tt, x) ∈ c.taggedVerts) ↔
      ((tt = false ∧ x ∈ c.U2V.map Prod.fst) ∨ (tt = true ∧ x ∈ c.V2U.map Prod.fst)) := by
  cases tt <;>
    simp [Bigraph.taggedVerts, List.mem_append, List.mem_map, Prod.ext_iff, eq_comm]

theorem or_exists_cons_shuffle {β : Type} (A : Prop) (l : List β) (b : β) (P : β → Prop) :
    ((A ∨ P b) ∨ ∃ x ∈ l, P x) ↔ (A ∨ ∃ x ∈ b :: l, P x) := by
  simp only [List.exists_mem_cons_iff]
  tauto

theorem Bigraph_ccRec_shape (a b : Bool × PyVal) (comp : Bigraph) (es : EdgeMap)
    (comp' : Bigraph) (es' : EdgeMap)
    (h : Bigraph.ccRec a b (comp, es) = Except.ok (comp', es')) :
    (∀ t, t ∈ comp'.taggedVerts ↔
      (t ∈ comp.taggedVerts ∨ t = (false, (ccEdge a b).1) ∨ t = (true, (ccEdge a b).2))) ∧
    (∀ e : Edge, e ∈ comp'.edges.map Prod.fst ↔
      (e ∈ comp.edges.map Prod.fst ∨ e = ccEdge a b)) := by
  rcases a with ⟨ta, xa⟩
  cases ta
  · simp only [Bigraph.ccRec] at h
    rcases hge : emapGetIns es (xa, b.2) with ⟨w, es1⟩
    rw [hge] at h
    rcases hadd : comp.add_edge xa b.2 w with m | comp1
    · simp only [hadd] at h
      exact absurd h (by simp)
    · simp only [hadd, Except.ok.injEq, Prod.mk.injEq] at h
      obtain ⟨h1, h2⟩ := h
      subst h1
      subst h2
      have hshape := Bigraph_add_edge_ok_shape comp xa b.2 w comp1 hadd
      subst hshape
      constructor
      · rintro ⟨tt, x⟩
        rw [taggedVerts_mem, taggedVerts_mem]
        simp only [adjAdd_keys_mem, ccEdge, Prod.ext_iff]
        simp
        try tauto
      · intro e
        simp only [emapAdd_keys_mem, ccEdge]
  · simp only [Bigraph.ccRec] at h
    rcases hge : emapGetIns es (b.2, xa) with ⟨w, es1⟩
    rw [hge] at h
    rcases hadd : comp.add_edge b.2 xa w with m | comp1
    · simp only [hadd] at h
      exact absurd h (by simp)
    · simp only [hadd, Except.ok.injEq, Prod.mk.injEq] at h
      obtain ⟨h1, h2⟩ := h
      subst h1
      subst h2
      have hshape := Bigraph_add_edge_ok_shape comp b.2 xa w comp1 hadd
      subst hshape
      constructor
      · rintro ⟨tt, x⟩
        rw [taggedVerts_mem, taggedVerts_mem]
        simp only [adjAdd_keys_mem, ccEdge, Prod.ext_iff]
        simp
        try tauto
      · intro e
        simp only [emapAdd_keys_mem, ccEdge]

theorem Bigraph_recFold_shape (a : Bool × PyVal) :
    ∀ (l : List (Bool × PyVal)) (comp : Bigraph) (es : EdgeMap)
      (comp' : Bigraph) (es' : EdgeMap),
    recFold Bigraph.ccRec a l (comp, es) = Except.ok (comp', es') →
    (∀ t, t ∈ comp'.taggedVerts ↔
      (t ∈ comp.taggedVerts ∨
        ∃ b ∈ l, t = (false, (ccEdge a b).1) ∨ t = (true, (ccEdge a b).2))) ∧
    (∀ e : Edge, e ∈ comp'.edges.map Prod.fst ↔
      (e ∈ comp.edges.map Prod.fst ∨ ∃ b ∈ l, e = ccEdge a b))
  | [], comp, es, comp', es', h => by
    simp only [recFold, Except.ok.injEq, Prod.mk.injEq] at h
    obtain ⟨h1, h2⟩ := h
    subst h1
    constructor
    · intro t
      simp
    · intro e
      simp
  | b :: l, comp, es, comp', es', h => by
    simp only [recFold] at h
    rcases hr : Bigraph.ccRec a b (comp, es) with m | ⟨comp1, es1⟩
    · simp only [hr] at h
      exact absurd h (by simp)
    · simp only [hr] at h
      obtain ⟨ihv, ihe⟩ := Bigraph_recFold_shape a l comp1 es1 comp' es' h
      obtain ⟨hv, he⟩ := Bigraph_ccRec_shape a b comp es comp1 es1 hr
      constructor
      · intro t
        rw [ihv t, hv t]
        exact or_exists_cons_shuffle _ _ _ (fun x => t = (false, (ccEdge a x).1) ∨ t = (true, (ccEdge a x).2))
      · intro e
        rw [ihe e, he e]
        exact or_exists_cons_shuffle _ _ _ (fun x => e = ccEdge a x)

theorem Bigraph_roundFold_shape (g : Bigraph) :
    ∀ (ps : List (Bool × PyVal)) (comp : Bigraph) (es : EdgeMap)
      (comp' : Bigraph) (es' : EdgeMap),
    roundFold g.ccNbs Bigraph.ccRec ps (comp, es) = Except.ok (comp', es') →
    (∀ t, t ∈ comp'.taggedVerts ↔
      (t ∈ comp.taggedVerts ∨ ∃ a ∈ ps, ∃ b ∈ g.ccNbs a,
        t = (false, (ccEdge a b).1) ∨ t = (true, (ccEdge a b).2))) ∧
    (∀ e : Edge, e ∈ comp'.edges.map Prod.fst ↔
      (e ∈ comp.edges.map Prod.fst ∨ ∃ a ∈ ps, ∃ b ∈ g.ccNbs a, e = ccEdge a b))
  | [], comp, es, comp', es', h => by
    simp only [roundFold, Except.ok.injEq, Prod.mk.injEq] at h
    obtain ⟨h1, h2⟩ := h
    subst h1
    constructor
    · intro t
      simp
    · intro e
      simp
  | a :: ps, comp, es, comp', es', h => by
    simp only [roundFold] at h
    rcases hr : recFold Bigraph.ccRec a (g.ccNbs a) (comp, es) with m | ⟨comp1, es1⟩
    · simp only [hr] at h
      exact absurd h (by simp)
    · simp only [hr] at h
      obtain ⟨ihv, ihe⟩ := Bigraph_roundFold_shape g ps comp1 es1 comp' es' h
      obtain ⟨hv, he⟩ := Bigraph_recFold_shape a (g.ccNbs a) comp es comp1 es1 hr
      constructor
      · intro t
        rw [ihv t, hv t]
        exact or_exists_cons_shuffle _ _ _ (fun x => ∃ b ∈ g.ccNbs x, t = (false, (ccEdge x b).1) ∨ t = (true, (ccEdge x b).2))
      · intro e
        rw [ihe e, he e]
        exact or_exists_cons_shuffle _ _ _ (fun x => ∃ b ∈ g.ccNbs x, e = ccEdge x b)

theorem Graph_ccRec_shape (v u : PyVal) (comp : Graph) (es : EdgeMap)
    (comp' : Graph) (es' : EdgeMap)
    (h : Graph.ccRec v u (comp, es) = Except.ok (comp', es')) :
    (∀ t, t ∈ comp'.V2U.map Prod.fst ↔
      (t ∈ comp.V2U.map Prod.fst ∨ t = u ∨ t = v)) ∧
    (∀ e : Edge, e ∈ comp'.edges.map Prod.fst ↔
      (e ∈ comp.edges.map Prod.fst ∨ e = Graph.make_edge u v)) := by
  simp only [Graph.ccRec] at h
  rcases hge : emapGetIns es (u, v) with ⟨w, es1⟩
  rw [hge] at h
  rcases hadd : comp.add_edge u v w with m | comp1
  · simp only [hadd] at h
    exact absurd h (by simp)
  · simp only [hadd, Except.ok.injEq, Prod.mk.injEq] at h
    obtain ⟨h1, h2⟩ := h
    subst h1
    subst h2
    have hshape := Graph_add_edge_ok_shape comp u v w comp1 hadd
    subst hshape
    constructor
    · intro t
      simp only [adjAdd_keys_mem]
      tauto
    · intro e
      simp only [emapAdd_keys_mem]

theorem Graph_recFold_shape (a : PyVal) :
    ∀ (l : List PyVal) (comp : Graph) (es : EdgeMap) (comp' : Graph) (es' : EdgeMap),
    recFold Graph.ccRec a l (comp, es) = Except.ok (comp', es') →
    (∀ t, t ∈ comp'.V2U.map Prod.fst ↔
      (t ∈ comp.V2U.map Prod.fst ∨ ∃ b ∈ l, t = b ∨ t = a)) ∧
    (∀ e : Edge, e ∈ comp'.edges.map Prod.fst ↔
      (e ∈ comp.edges.map Prod.fst ∨ ∃ b ∈ l, e = Graph.make_edge b a))
  | [], comp, es, comp', es', h => by
    simp only [recFold, Except.ok.injEq, Prod.mk.injEq] at h
    obtain ⟨h1, h2⟩ := h
    subst h1
    constructor
    · intro t
      simp
    · intro e
      simp
  | b :: l, comp, es, comp', es', h => by
    simp only [recFold] at h
    rcases hr : Graph.ccRec a b (comp, es) with m | ⟨comp1, es1⟩
    · simp only [hr] at h
      exact absurd h (by simp)
    · simp only [hr] at h
      obtain ⟨ihv, ihe⟩ := Graph_recFold_shape a l comp1 es1 comp' es' h
      obtain ⟨hv, he⟩ := Graph_ccRec_shape a b comp es comp1 es1 hr
      constructor
      · intro t
        rw [ihv t, hv t]
        exact or_exists_cons_shuffle _ _ _ (fun x => t = x ∨ t = a)
      · intro e
        rw [ihe e, he e]
        exact or_exists_cons_shuffle _ _ _ (fun x => e = Graph.make_edge x a)

theorem Graph_roundFold_shape (g : Graph) :
    ∀ (ps : List PyVal) (comp : Graph) (es : EdgeMap) (comp' : Graph) (es' : EdgeMap),
    roundFold g.ccNbs Graph.ccRec ps (comp, es) = Except.ok (comp', es') →
    (∀ t, t ∈ comp'.V2U.map Prod.fst ↔
      (t ∈ comp.V2U.map Prod.fst ∨ ∃ a ∈ ps, ∃ b ∈ g.ccNbs a, t = b ∨ t = a)) ∧
    (∀ e : Edge, e ∈ comp'.edges.map Prod.fst ↔
      (e ∈ comp.edges.map Prod.fst ∨ ∃ a ∈ ps, ∃ b ∈ g.ccNbs a, e = Graph.make_edge b a))
  | [], comp, es, comp', es', h => by
    simp only [roundFold, Except.ok.injEq, Prod.mk.injEq] at h
    obtain ⟨h1, h2⟩ := h
    subst h1
    constructor
    · intro t
      simp
    · intro e
      simp
  | a :: ps, comp, es, comp', es', h => by
    simp only [roundFold] at h
    rcases hr : recFold Graph.ccRec a (g.ccNbs a) (comp, es) with m | ⟨comp1, es1⟩
    · simp only [hr] at h
      exact absurd h (by simp)
    · simp only [hr] at h
      obtain ⟨ihv, ihe⟩ := Graph_roundFold_shape g ps comp1 es1 comp' es' h
      obtain ⟨hv, he⟩ := Graph_recFold_shape a (g.ccNbs a) comp es comp1 es1 hr
      constructor
      · intro t
        rw [ihv t, hv t]
        exact or_exists_cons_shuffle _ _ _ (fun x => ∃ b ∈ g.ccNbs x, t = b ∨ t = x)
      · intro e
        rw [ihe e, he e]
        exact or_exists_cons_shuffle _ _ _ (fun x => ∃ b ∈ g.ccNbs x, e = Graph.make_edge b x)

theorem forall₂_mem_right {A B : Type} {R : A → B → Prop} :
    ∀ {l1 : List A} {l2 : List B}, List.Forall₂ R l1 l2 →
    ∀ b ∈ l2, ∃ a ∈ l1, R a b := by
  intro l1 l2 h
  induction h with
  | nil => simp
  | cons hR _ ih =>
    intro b hb
    rcases List.mem_cons.mp hb with rfl | hb'
    · exact ⟨_, by simp, hR⟩
    · obtain ⟨a, ha, hr⟩ := ih b hb'
      exact ⟨a, List.mem_cons_of_mem _ ha, hr⟩

theorem forall₂_exists_iff {A B : Type} {R : A → B → Prop} (P : B → Prop) (Q : A → Prop) :
    ∀ {l1 : List A} {l2 : List B}, List.Forall₂ R l1 l2 →
    (∀ a b, R a b → (P b ↔ Q a)) →
    ((∃ b ∈ l2, P b) ↔ (∃ a ∈ l1, Q a)) := by
  intro l1 l2 h hpt
  induction h with
  | nil => simp
  | cons hR _ ih =>
    simp only [List.exists_mem_cons_iff]
    rw [hpt _ _ hR, ih]

theorem forall₂_pairwise {A B : Type} {R : A → B → Prop} {S : A → A → Prop}
    {T : B → B → Prop} :
    ∀ {l1 : List A} {l2 : List B}, List.Forall₂ R l1 l2 → List.Pairwise S l1 →
    (∀ a b a' b', R a b → R a' b' → S a a' → T b b') →
    List.Pairwise T l2 := by
  intro l1 l2 h hp hpt
  induction h with
  | nil => exact List.Pairwise.nil
  | cons hR hFa ih =>
    rcases List.pairwise_cons.mp hp with ⟨hhead, htail⟩
    refine List.Pairwise.cons ?_ (ih htail)
    intro b' hb'
    obtain ⟨a', ha', hr'⟩ := forall₂_mem_right hFa b' hb'
    exact hpt _ _ _ _ hR hr' (hhead a' ha')

theorem forall₂_countP {A B : Type} {R : A → B → Prop} (p : B → Bool) (q : A → Bool) :
    ∀ {l1 : List A} {l2 : List B}, List.Forall₂ R l1 l2 →
    (∀ a b, R a b → p b = q a) →
    l2.countP p = l1.countP q := by
  intro l1 l2 h hpt
  induction h with
  | nil => rfl
  | cons hR _ ih =>
    simp only [List.countP_cons]
    rw [hpt _ _ hR, ih]

theorem countP_eq_one_of_unique {A : Type} [DecidableEq A] (x : A) :
    ∀ (L : List (List A)), (∃ ps ∈ L, x ∈ ps) →
    List.Pairwise (fun pq qq => ∀ y, y ∈ pq → ¬ y ∈ qq) L →
    L.countP (fun ps => decide (x ∈ ps)) = 1 := by
  intro L
  induction L with
  | nil => intro h; simp at h
  | cons ps rest ih =>
    intro hex hpw
    rcases List.pairwise_cons.mp hpw with ⟨hhead, htail⟩
    by_cases hx : x ∈ ps
    · have h0 : rest.countP (fun q => decide (x ∈ q)) = 0 := by
        rw [List.countP_eq_zero]
        intro q hq
        simp only [decide_eq_true_eq]
        exact hhead q hq x hx
      simp [List.countP_cons, hx, h0]
    · rcases hex with ⟨q, hq, hxq⟩
      rcases List.mem_cons.mp hq with rfl | hq'
      · exact absurd hxq hx
      · have := ih ⟨q, hq', hxq⟩ htail
        simp [List.countP_cons, hx, this]

theorem forall₂_strengthen_mem {A B : Type} {R : A → B → Prop} :
    ∀ {l1 : List A} {l2 : List B}, List.Forall₂ R l1 l2 →
    List.Forall₂ (fun a b => a ∈ l1 ∧ R a b) l1 l2 := by
  intro l1 l2 h
  induction h with
  | nil => exact List.Forall₂.nil
  | cons hR hFa ih =>
    refine List.Forall₂.cons ⟨by simp, hR⟩ ?_
    exact List.Forall₂.imp (fun a b hab => ⟨List.mem_cons_of_mem _ hab.1, hab.2⟩) ih

theorem alookup_of_mem_nodup {κ β : Type} [DecidableEq κ] :
    ∀ (m : List (κ × β)), (m.map Prod.fst).Nodup →
    ∀ (k : κ) (b : β), (k, b) ∈ m → alookup k m = some b
  | [], _, k, b, h => by simp at h
  | (k', b') :: rest, hnd, k, b, h => by
    simp only [List.map_cons] at hnd
    rcases List.mem_cons.mp h with heq | hmem
    · obtain ⟨h1, h2⟩ := Prod.mk.injEq .. ▸ heq
      subst h1
      subst h2
      simp [alookup]
    · by_cases hk : k' = k
      · subst hk
        exfalso
        have : k' ∈ rest.map Prod.fst := List.mem_map.mpr ⟨(k', b), hmem, rfl⟩
        exact (List.nodup_cons.mp hnd).1 this
      · simp only [alookup, if_neg hk]
        exact alookup_of_mem_nodup rest (List.nodup_cons.mp hnd).2 k b hmem

theorem adjGet_of_mem_nodup (m : AdjMap) (hnd : (m.map Prod.fst).Nodup)
    (k : PyVal) (vs : List PyVal) (h : (k, vs) ∈ m) : adjGet m k = vs := by
  unfold adjGet
  rw [alookup_of_mem_nodup m hnd k vs h]
  rfl

theorem Bigraph_ccNbs_false (g : Bigraph) (u : PyVal) (b : Bool × PyVal) :
    b ∈ g.ccNbs (false, u) ↔ ∃ v ∈ adjGet g.U2V u, b = (true, v) := by
  simp only [Bigraph.ccNbs, List.mem_map]
  constructor
  · rintro ⟨v, hv, rfl⟩
    exact ⟨v, hv, rfl⟩
  · rintro ⟨v, hv, rfl⟩
    exact ⟨v, hv, rfl⟩

theorem Bigraph_ccNbs_true (g : Bigraph) (v : PyVal) (b : Bool × PyVal) :
    b ∈ g.ccNbs (true, v) ↔ ∃ u ∈ adjGet g.V2U v, b = (false, u) := by
  simp only [Bigraph.ccNbs, List.mem_map]
  constructor
  · rintro ⟨u, hu, rfl⟩
    exact ⟨u, hu, rfl⟩
  · rintro ⟨u, hu, rfl⟩
    exact ⟨u, hu, rfl⟩

theorem taggedVerts_eq_ccRemaining (c : Bigraph) : c.taggedVerts = c.ccRemaining := rfl

theorem Bigraph_add_edge_ok_of (comp : Bigraph) (u v : PyVal) (w : Int)
    (hu : u ≠ pnone) (hv : v ≠ pnone) : ∃ c1, comp.add_edge u v w = Except.ok c1 := by
  rw [Bigraph.add_edge, Bigraph_map_edge_ok _ _ (by simp [hu, hv])]
  exact ⟨_, rfl⟩

theorem Graph_add_edge_ok_of (comp : Graph) (u v : PyVal) (w : Int)
    (hu : u ≠ pnone) (hv : v ≠ pnone) : ∃ c1, comp.add_edge u v w = Except.ok c1 := by
  rw [Graph.add_edge, Graph_map_edge_ok _ _ (by simp [hu, hv])]
  exact ⟨_, rfl⟩

theorem make_edge_cases (u v : PyVal) :
    Graph.make_edge u v = (u, v) ∨ Graph.make_edge u v = (v, u) := by
  unfold Graph.make_edge
  by_cases h : ple u v
  · exact Or.inl (if_pos h)
  · exact Or.inr (if_neg h)

theorem Bigraph_components_partition (g : Bigraph) (hwf : g.wf) :
    ∃ comps es',
      g.find_connected_components = RunRes.done (comps, es') ∧
      List.Pairwise (fun c d => ∀ t : Bool × PyVal,
        t ∈ c.taggedVerts → ¬ t ∈ d.taggedVerts) comps ∧
      (∀ t : Bool × PyVal, (∃ c ∈ comps, t ∈ c.taggedVerts) ↔ t ∈ g.taggedVerts) ∧
      (∀ e ∈ g.edges.map Prod.fst,
        comps.countP (fun c => decide (e ∈ c.edges.map Prod.fst)) = 1) := by
  obtain ⟨hndU, hndV, hU, hV, _, hkeys⟩ := hwf
  have hsymUV : ∀ u v, v ∈ adjGet g.U2V u ↔ u ∈ adjGet g.V2U v := by
    intro u v
    constructor
    · intro h
      obtain ⟨ns, hmem, hv⟩ := adjGet_mem_entry _ _ _ h
      exact ((hU (u, ns) hmem).2.2 v hv).2
    · intro h
      obtain ⟨ns, hmem, hv⟩ := adjGet_mem_entry _ _ _ h
      exact ((hV (v, ns) hmem).2.2 u hv).2
  have hsymkey : ∀ a b, a ∈ g.ccNbs b → b ∈ g.ccNbs a := by
    rintro ⟨ta, xa⟩ ⟨tb, xb⟩ h
    cases tb
    · rw [Bigraph_ccNbs_false] at h
      obtain ⟨v, hv, heq⟩ := h
      injection heq with h1 h2
      subst h1
      subst h2
      rw [Bigraph_ccNbs_true]
      exact ⟨xb, (hsymUV xb xa).mp hv, rfl⟩
    · rw [Bigraph_ccNbs_true] at h
      obtain ⟨u, hu, heq⟩ := h
      injection heq with h1 h2
      subst h1
      subst h2
      rw [Bigraph_ccNbs_false]
      exact ⟨xb, (hsymUV xa xb).mpr hu, rfl⟩
  have hsym : ∀ a b, a ∈ g.ccNbs b ↔ b ∈ g.ccNbs a :=
    fun a b => ⟨hsymkey a b, hsymkey b a⟩
  have hrem_nodup : g.ccRemaining.Nodup := by
    unfold Bigraph.ccRemaining
    refine List.Nodup.append ?_ ?_ ?_
    · have : g.U2V.map (fun p => ((false : Bool), p.1))
          = (g.U2V.map Prod.fst).map (fun k => ((false : Bool), k)) := by
        rw [List.map_map]
        rfl
      rw [this]
      exact hndU.map (fun a b h => by injection h)
    · have : g.V2U.map (fun p => ((true : Bool), p.1))
          = (g.V2U.map Prod.fst).map (fun k => ((true : Bool), k)) := by
        rw [List.map_map]
        rfl
      rw [this]
      exact hndV.map (fun a b h => by injection h)
    · intro x hx1 hx2
      obtain ⟨p, _, hp⟩ := List.mem_map.mp hx1
      obtain ⟨q, _, hq⟩ := List.mem_map.mp hx2
      rw [← hp] at hq
      injection hq with h1 _
      cases h1
  have hremU : ∀ x : PyVal, ((false, x) : Bool × PyVal) ∈ g.ccRemaining ↔
      x ∈ g.U2V.map Prod.fst := by
    intro x
    rw [← taggedVerts_eq_ccRemaining, taggedVerts_mem]
    simp
  have hremV : ∀ x : PyVal, ((true, x) : Bool × PyVal) ∈ g.ccRemaining ↔
      x ∈ g.V2U.map Prod.fst := by
    intro x
    rw [← taggedVerts_eq_ccRemaining, taggedVerts_mem]
    simp
  have hnbs_empty : ∀ a, ¬ a ∈ g.ccRemaining → g.ccNbs a = [] := by
    rintro ⟨ta, xa⟩ ha
    cases ta
    · have hx : ¬ xa ∈ g.U2V.map Prod.fst := fun hx => ha ((hremU xa).mpr hx)
      simp [Bigraph.ccNbs, adjGet, (alookup_eq_none _ _).mpr hx]
    · have hx : ¬ xa ∈ g.V2U.map Prod.fst := fun hx => ha ((hremV xa).mpr hx)
      simp [Bigraph.ccNbs, adjGet, (alookup_eq_none _ _).mpr hx]
  have hcl : ∀ a, ¬ a ∈ g.ccRemaining → ∀ b ∈ g.ccNbs a, ¬ b ∈ g.ccRemaining := by
    intro a ha b hb
    rw [hnbs_empty a ha] at hb
    simp at hb
  have hrec : ∀ a b, b ∈ g.ccNbs a → ∀ s : Bigraph × EdgeMap,
      ∃ s1, Bigraph.ccRec a b s = Except.ok s1 := by
    rintro ⟨ta, xa⟩ b hb ⟨comp, es⟩
    cases ta
    · rw [Bigraph_ccNbs_false] at hb
      obtain ⟨v, hv, hbeq⟩ := hb
      obtain ⟨ns, hns, hvns⟩ := adjGet_mem_entry _ _ _ hv
      have hxa : xa ≠ pnone := (hU (xa, ns) hns).2.1
      have hvn : b.2 ≠ pnone := by
        rw [hbeq]
        exact ((hU (xa, ns) hns).2.2 v hvns).1
      simp only [Bigraph.ccRec]
      rcases hge : emapGetIns es (xa, b.2) with ⟨w, es1⟩
      simp only [hge]
      obtain ⟨c1, hc1⟩ := Bigraph_add_edge_ok_of comp xa b.2 w hxa hvn
      simp only [hc1]
      exact ⟨(c1, es1), rfl⟩
    · rw [Bigraph_ccNbs_true] at hb
      obtain ⟨u, hu, hbeq⟩ := hb
      obtain ⟨ns, hns, huns⟩ := adjGet_mem_entry _ _ _ hu
      have hxa : xa ≠ pnone := (hV (xa, ns) hns).2.1
      have hun : b.2 ≠ pnone := by
        rw [hbeq]
        exact ((hV (xa, ns) hns).2.2 u huns).1
      simp only [Bigraph.ccRec]
      rcases hge : emapGetIns es (b.2, xa) with ⟨w, es1⟩
      simp only [hge]
      obtain ⟨c1, hc1⟩ := Bigraph_add_edge_ok_of comp b.2 xa w hun hxa
      simp only [hc1]
      exact ⟨(c1, es1), rfl⟩
  obtain ⟨comps, es', hrun⟩ := ccOuter_done_of_fuel g.ccNbs Bigraph.ccRec Bigraph.empty hrec
    (g.ccRemaining.length + 1) g.edges g.ccRemaining hrem_nodup (by omega)
  obtain ⟨popsL, hfa, hcov, hpair, hclos⟩ := ccOuter_done_spec g.ccNbs Bigraph.ccRec
    Bigraph.empty hsym (g.ccRemaining.length + 1) g.edges g.ccRemaining comps es'
    hrem_nodup hcl hrun
  have hfa' := forall₂_strengthen_mem hfa
  have hvc : ∀ ps c, (ps ∈ popsL ∧ ∃ es0 es1,
      roundFold g.ccNbs Bigraph.ccRec ps (Bigraph.empty, es0) = Except.ok (c, es1)) →
      ∀ t, t ∈ c.taggedVerts ↔ t ∈ ps := by
    rintro ps c ⟨hps, es0, es1, hrf⟩ t
    obtain ⟨hv, _⟩ := Bigraph_roundFold_shape g ps Bigraph.empty es0 c es1 hrf
    rw [hv t]
    constructor
    · rintro (hemp | ⟨a, ha, b, hb, ht⟩)
      · simp [Bigraph.empty, Bigraph.taggedVerts] at hemp
      · rcases a with ⟨ta, xa⟩
        cases ta
        · rw [Bigraph_ccNbs_false] at hb
          obtain ⟨v, hv', rfl⟩ := hb
          rcases ht with rfl | rfl
          · simpa [ccEdge] using ha
          · have : ((true, v) : Bool × PyVal) ∈ ps := hclos ps hps _ ha _
              ((Bigraph_ccNbs_false g xa (true, v)).mpr ⟨v, hv', rfl⟩)
            simpa [ccEdge] using this
        · rw [Bigraph_ccNbs_true] at hb
          obtain ⟨u, hu', rfl⟩ := hb
          rcases ht with rfl | rfl
          · have : ((false, u) : Bool × PyVal) ∈ ps := hclos ps hps _ ha _
              ((Bigraph_ccNbs_true g xa (false, u)).mpr ⟨u, hu', rfl⟩)
            simpa [ccEdge] using this
          · simpa [ccEdge] using ha
    · intro htps
      rcases t with ⟨tt, x⟩
      have htrem : ((tt, x) : Bool × PyVal) ∈ g.ccRemaining :=
        (hcov (tt, x)).mpr ⟨ps, hps, htps⟩
      cases tt
      · have hxk : x ∈ g.U2V.map Prod.fst := (hremU x).mp htrem
        obtain ⟨p, hp, hpx⟩ := List.mem_map.mp hxk
        obtain ⟨v, hv'⟩ := List.exists_mem_of_ne_nil p.2 (hU p hp).1
        have hadjx : v ∈ adjGet g.U2V x := by
          rcases p with ⟨k, ns⟩
          cases hpx
          rw [adjGet_of_mem_nodup g.U2V hndU k ns hp]
          exact hv'
        refine Or.inr ⟨(false, x), htps, (true, v),
          (Bigraph_ccNbs_false g x (true, v)).mpr ⟨v, hadjx, rfl⟩, Or.inl (by simp [ccEdge])⟩
      · have hxk : x ∈ g.V2U.map Prod.fst := (hremV x).mp htrem
        obtain ⟨p, hp, hpx⟩ := List.mem_map.mp hxk
        obtain ⟨u, hu'⟩ := List.exists_mem_of_ne_nil p.2 (hV p hp).1
        have hadjx : u ∈ adjGet g.V2U x := by
          rcases p with ⟨k, ns⟩
          cases hpx
          rw [adjGet_of_mem_nodup g.V2U hndV k ns hp]
          exact hu'
        refine Or.inr ⟨(true, x), htps, (false, u),
          (Bigraph_ccNbs_true g x (false, u)).mpr ⟨u, hadjx, rfl⟩, Or.inr (by simp [ccEdge])⟩
  refine ⟨comps, es', hrun, ?_, ?_, ?_⟩
  · refine forall₂_pairwise hfa' hpair ?_
    intro ps c ps' c' hR hR' hS
    intro t htc htc'
    have h1 := (hvc ps c hR t).mp htc
    have h2 := (hvc ps' c' hR' t).mp htc'
    exact hS t h1 h2
  · intro t
    have htrans := forall₂_exists_iff (fun c => t ∈ c.taggedVerts) (fun ps => t ∈ ps)
      hfa' (fun ps c hR => hvc ps c hR t)
    rw [htrans, taggedVerts_eq_ccRemaining]
    exact (hcov t).symm
  · intro e he
    obtain ⟨q, hq, hqe⟩ := List.mem_map.mp he
    have hadj : q.1.2 ∈ adjGet g.U2V q.1.1 := hkeys q hq
    subst hqe
    have hfrem : ((false, q.1.1) : Bool × PyVal) ∈ g.ccRemaining :=
      (hremU q.1.1).mpr (adjGet_key_mem _ _ _ hadj)
    have hpt : ∀ ps c, (ps ∈ popsL ∧ ∃ es0 es1,
        roundFold g.ccNbs Bigraph.ccRec ps (Bigraph.empty, es0) = Except.ok (c, es1)) →
        decide (q.1 ∈ c.edges.map Prod.fst) = decide (((false, q.1.1) : Bool × PyVal) ∈ ps) := by
      rintro ps c ⟨hps, es0, es1, hrf⟩
      obtain ⟨_, hec⟩ := Bigraph_roundFold_shape g ps Bigraph.empty es0 c es1 hrf
      refine decide_eq_decide.mpr ?_
      rw [hec]
      constructor
      · rintro (hemp | ⟨a, ha, b, hb, heq⟩)
        · simp [Bigraph.empty] at hemp
        · rcases a with ⟨ta, xa⟩
          cases ta
          · rw [Bigraph_ccNbs_false] at hb
            obtain ⟨v, hv', rfl⟩ := hb
            simp only [ccEdge] at heq
            rw [heq]
            exact ha
          · rw [Bigraph_ccNbs_true] at hb
            obtain ⟨u, hu', rfl⟩ := hb
            simp only [ccEdge] at heq
            have hbp : ((false, u) : Bool × PyVal) ∈ ps := hclos ps hps _ ha _
              ((Bigraph_ccNbs_true g xa (false, u)).mpr ⟨u, hu', rfl⟩)
            rw [heq]
            exact hbp
      · intro hfps
        refine Or.inr ⟨(false, q.1.1), hfps, (true, q.1.2),
          (Bigraph_ccNbs_false g q.1.1 (true, q.1.2)).mpr ⟨q.1.2, hadj, rfl⟩, ?_⟩
        simp [ccEdge]
    have hcount := forall₂_countP (fun c => decide (q.1 ∈ c.edges.map Prod.fst))
      (fun ps => decide (((false, q.1.1) : Bool × PyVal) ∈ ps)) hfa' hpt
    rw [hcount]
    have hone := countP_eq_one_of_unique ((false, q.1.1) : Bool × PyVal) popsL
      ((hcov _).mp hfrem) hpair
    exact (List.countP_congr (fun ps _ => by simp)).trans hone

theorem Graph_components_partition (g : Graph) (hwf : g.wf) :
    ∃ comps es',
      g.find_connected_components = RunRes.done (comps, es') ∧
      List.Pairwise (fun c d => ∀ t : PyVal, t ∈ c.V → ¬ t ∈ d.V) comps ∧
      (∀ t : PyVal, (∃ c ∈ comps, t ∈ c.V) ↔ t ∈ g.V) ∧
      (∀ e ∈ g.edges.map Prod.fst,
        comps.countP (fun c => decide (e ∈ c.edges.map Prod.fst)) = 1) := by
  obtain ⟨hnd, hV, _, hkeys⟩ := hwf
  have hsym1 : ∀ a b : PyVal, b ∈ g.ccNbs a → a ∈ g.ccNbs b := by
    intro a b h
    simp only [Graph.ccNbs] at h ⊢
    obtain ⟨ns, hns, hb⟩ := adjGet_mem_entry _ _ _ h
    exact ((hV (a, ns) hns).2.2 b hb).2
  have hsym : ∀ a b : PyVal, a ∈ g.ccNbs b ↔ b ∈ g.ccNbs a :=
    fun a b => ⟨hsym1 b a, hsym1 a b⟩
  have hrem_nodup : g.V.Nodup := hnd
  have hnbs_empty : ∀ a, ¬ a ∈ g.V → g.ccNbs a = [] := by
    intro a hna
    simp only [Graph.ccNbs, adjGet]
    rw [(alookup_eq_none g.V2U a).mpr hna]
    rfl
  have hcl : ∀ a, ¬ a ∈ g.V → ∀ b ∈ g.ccNbs a, ¬ b ∈ g.V := by
    intro a hna b hb
    rw [hnbs_empty a hna] at hb
    simp at hb
  have hrec : ∀ (a b : PyVal), b ∈ g.ccNbs a →
      ∀ s : Graph × EdgeMap, ∃ s1, Graph.ccRec a b s = Except.ok s1 := by
    rintro a b hb ⟨comp, es⟩
    simp only [Graph.ccNbs] at hb
    obtain ⟨ns, hns, hbns⟩ := adjGet_mem_entry _ _ _ hb
    have ha0 : a ≠ pnone := (hV (a, ns) hns).2.1
    have hb0 : b ≠ pnone := ((hV (a, ns) hns).2.2 b hbns).1
    simp only [Graph.ccRec]
    rcases hge : emapGetIns es (b, a) with ⟨w, es1⟩
    simp only [hge]
    obtain ⟨c1, hc1⟩ := Graph_add_edge_ok_of comp b a w hb0 ha0
    simp only [hc1]
    exact ⟨(c1, es1), rfl⟩
  obtain ⟨comps, es', hrun⟩ := ccOuter_done_of_fuel g.ccNbs Graph.ccRec Graph.empty hrec
    (g.V.length + 1) g.edges g.V hrem_nodup (by omega)
  obtain ⟨popsL, hfa, hcov, hpair, hclos⟩ := ccOuter_done_spec g.ccNbs Graph.ccRec
    Graph.empty hsym (g.V.length + 1) g.edges g.V comps es' hrem_nodup hcl hrun
  have hfa' := forall₂_strengthen_mem hfa
  have hvc : ∀ ps c, (ps ∈ popsL ∧ ∃ es0 es1,
      roundFold g.ccNbs Graph.ccRec ps (Graph.empty, es0) = Except.ok (c, es1)) →
      ∀ t, t ∈ c.V ↔ t ∈ ps := by
    rintro ps c ⟨hps, es0, es1, hrf⟩ t
    obtain ⟨hv, _⟩ := Graph_roundFold_shape g ps Graph.empty es0 c es1 hrf
    simp only [Graph.V]
    rw [hv t]
    constructor
    · rintro (hemp | ⟨a, ha, b, hb, rfl | rfl⟩)
      · simp [Graph.empty] at hemp
      · exact hclos ps hps a ha _ hb
      · exact ha
    · intro htps
      have htrem : t ∈ g.V := (hcov t).mpr ⟨ps, hps, htps⟩
      obtain ⟨p, hp, hpx⟩ := List.mem_map.mp htrem
      obtain ⟨u, hu'⟩ := List.exists_mem_of_ne_nil p.2 (hV p hp).1
      have hadjx : u ∈ g.ccNbs t := by
        simp only [Graph.ccNbs]
        rcases p with ⟨k, ns⟩
        cases hpx
        rw [adjGet_of_mem_nodup g.V2U hnd k ns hp]
        exact hu'
      exact Or.inr ⟨t, htps, u, hadjx, Or.inr rfl⟩
  refine ⟨comps, es', hrun, ?_, ?_, ?_⟩
  · refine forall₂_pairwise hfa' hpair ?_
    intro ps c ps' c' hR hR' hS
    intro t htc htc'
    have h1 := (hvc ps c hR t).mp htc
    have h2 := (hvc ps' c' hR' t).mp htc'
    exact hS t h1 h2
  · intro t
    have htrans := forall₂_exists_iff (fun c => t ∈ c.V) (fun ps => t ∈ ps)
      hfa' (fun ps c hR => hvc ps c hR t)
    rw [htrans]
    exact (hcov t).symm
  · intro e he
    obtain ⟨q, hq, hqe⟩ := List.mem_map.mp he
    obtain ⟨hqcan, hadj12, hadj21⟩ := hkeys q hq
    subst hqe
    have hfrem : q.1.2 ∈ g.V := adjGet_key_mem _ _ _ hadj21
    have hpt : ∀ ps c, (ps ∈ popsL ∧ ∃ es0 es1,
        roundFold g.ccNbs Graph.ccRec ps (Graph.empty, es0) = Except.ok (c, es1)) →
        decide (q.1 ∈ c.edges.map Prod.fst) = decide (q.1.2 ∈ ps) := by
      rintro ps c ⟨hps, es0, es1, hrf⟩
      obtain ⟨_, hec⟩ := Graph_roundFold_shape g ps Graph.empty es0 c es1 hrf
      refine decide_eq_decide.mpr ?_
      rw [hec]
      constructor
      · rintro (hemp | ⟨a, ha, b, hb, heq⟩)
        · simp [Graph.empty] at hemp
        · rcases make_edge_cases b a with hme | hme
          · rw [hme] at heq
            have h2 : q.1.2 = a := by rw [heq]
            rw [h2]
            exact ha
          · rw [hme] at heq
            have h2 : q.1.2 = b := by rw [heq]
            rw [h2]
            exact hclos ps hps a ha b hb
      · intro hps2
        refine Or.inr ⟨q.1.2, hps2, q.1.1, ?_, hqcan⟩
        simp only [Graph.ccNbs]
        exact hadj21
    have hcount := forall₂_countP (fun c => decide (q.1 ∈ c.edges.map Prod.fst))
      (fun ps => decide (q.1.2 ∈ ps)) hfa' hpt
    rw [hcount]
    have hone := countP_eq_one_of_unique q.1.2 popsL ((hcov _).mp hfrem) hpair
    exact (List.countP_congr (fun ps _ => by simp)).trans hone

/-- C4: for every well-formed graph (bipartite `Bigraph` or unipartite
`Graph`), a full run of `find_connected_components` completes, the yielded
components have pairwise-disjoint vertex sets, the union of those vertex sets
is exactly the original graph's vertex set, and every edge key of the
original graph appears in the edge table of exactly one yielded component. -/
theorem c4_components_partition_vertices_and_edges
    (bg : Bigraph) (g : Graph) (hbwf : bg.wf) (hgwf : g.wf) :
    (∃ comps es',
      bg.find_connected_components = RunRes.done (comps, es') ∧
      List.Pairwise (fun c d => ∀ t : Bool × PyVal,
        t ∈ c.taggedVerts → ¬ t ∈ d.taggedVerts) comps ∧
      (∀ t : Bool × PyVal, (∃ c ∈ comps, t ∈ c.taggedVerts) ↔ t ∈ bg.taggedVerts) ∧
      (∀ e ∈ bg.edges.map Prod.fst,
        comps.countP (fun c => decide (e ∈ c.edges.map Prod.fst)) = 1)) ∧
    (∃ comps es',
      g.find_connected_components = RunRes.done (comps, es') ∧
      List.Pairwise (fun c d => ∀ t : PyVal, t ∈ c.V → ¬ t ∈ d.V) comps ∧
      (∀ t : PyVal, (∃ c ∈ comps, t ∈ c.V) ↔ t ∈ g.V) ∧
      (∀ e ∈ g.edges.map Prod.fst,
        comps.countP (fun c => decide (e ∈ c.edges.map Prod.fst)) = 1)) :=
  ⟨Bigraph_components_partition bg hbwf, Graph_components_partition g hgwf⟩

/-- Witness for C4 at the concrete one-edge graphs `c5bg` and `c5g`: both
well-formedness hypotheses hold there and the partition conclusion follows. -/
theorem c4_components_partition_vertices_and_edges_witness :
    c5bg.wf ∧ c5g.wf ∧
    ((∃ comps es',
      c5bg.find_connected_components = RunRes.done (comps, es') ∧
      List.Pairwise (fun c d => ∀ t : Bool × PyVal,
        t ∈ c.taggedVerts → ¬ t ∈ d.taggedVerts) comps ∧
      (∀ t : Bool × PyVal, (∃ c ∈ comps, t ∈ c.taggedVerts) ↔ t ∈ c5bg.taggedVerts) ∧
      (∀ e ∈ c5bg.edges.map Prod.fst,
        comps.countP (fun c => decide (e ∈ c.edges.map Prod.fst)) = 1)) ∧
    (∃ comps es',
      c5g.find_connected_components = RunRes.done (comps, es') ∧
      List.Pairwise (fun c d => ∀ t : PyVal, t ∈ c.V → ¬ t ∈ d.V) comps ∧
      (∀ t : PyVal, (∃ c ∈ comps, t ∈ c.V) ↔ t ∈ c5g.V) ∧
      (∀ e ∈ c5g.edges.map Prod.fst,
        comps.countP (fun c => decide (e ∈ c.edges.map Prod.fst)) = 1))) := by
  refine ⟨?_, ?_, ?_⟩
  · unfold Bigraph.wf
    decide
  · unfold Graph.wf
    decide
  · exact c4_components_partition_vertices_and_edges c5bg c5g
      (by unfold Bigraph.wf; decide) (by unfold Graph.wf; decide)
